import Mathlib

/-!
# Verification of the `eibb` key-extraction core

Shallow embedding of `document.go`, `types.go` and `transform.go`:
the flattening of a `gjson.Result` into indexable values
(`valuesFromResult`, `Document.ValuesAtPath`, `Document.KeysAtPath`), the
canonical encoder `toBytes`, `Reference`, the transform `ToLower` and
`WhiteSpaceTokenizer`.

Conventions of the embedding.

* A Go `byte` is a natural number below 256; a Go `string` is the sequence
  of its bytes (Go strings are byte sequences, `[]byte(s)` copies them).
  A *text* is a sequence of Unicode scalar values (a Lean `String`); its Go
  string holds its UTF-8 encoding.
* A Go slice is an `Option (List _)`: `none` is the `nil` slice, `some []`
  an empty non-nil slice.
* A Go `float64` is its IEEE-754 bit pattern (`math.Float64bits` is a
  bijection between the two), a natural number reduced modulo `2 ^ 64`
  wherever it is stored in 64 bits.
* A Go `(value, error)` result is a pair of options, `none` for `nil`.
* `interface{}` is a sum over the dynamic types that the code
  distinguishes, with a catch-all for every other type.
* The `gjson` package is an external collaborator: a `gjson.Result` is
  modelled by the tree its `Type`, `Str`, `Num`, `Raw`, `IsArray()` and
  `Array()` expose, and `gjson.ValidBytes` / `gjson.GetBytes` are
  parameters.
* Of the Go standard library, `binary.BigEndian.PutUint64`,
  `hex.EncodeToString`, `strings.ToLower` and `FindAllString` for `\S+` are
  modelled by what they compute. `unicode.ToLower` is a parameter of
  `ToLower` (`Env`); `unicodeToLower` is that function as the lower-case
  mapping of the Unicode Character Database, and `goEnv` the environment
  built on it.
-/

namespace Eibb

/-! ## Data model -/

/-- Go `[]byte` contents: a list of bytes, each a natural number below 256. -/
abbrev Bytes := List Nat

/-- Go slice: `none` is the `nil` slice. -/
abbrev Slice (α : Type) := Option (List α)

/-- Go `len` of a slice (`len(nil) = 0`). -/
def Slice.len {α : Type} : Slice α → Nat
  | none => 0
  | some xs => xs.length

/-- Go `string`: the sequence of its bytes. -/
structure GoString where
  bytes : Bytes
deriving DecidableEq, Repr

/-- Go `float64`, represented by its IEEE-754 bit pattern
(`math.Float64bits`); only the low 64 bits are significant. -/
structure Float64 where
  bits : Nat
deriving DecidableEq, Repr

/-- Modelled from the spec: the declaration of type `Key` is not among the
sources. The spec calls a Key "an opaque byte sequence"; the sources fix the
rest: `keys[i] = key` (document.go) assigns a `[]byte` to a `Key`, so its
underlying type is `[]byte`, and `ToLower` (transform.go) lists `case Key:`
next to `case []byte:` and calls `terms.(Key).String()`, so `Key` is a
defined type of its own (`type Key []byte`), distinct from `[]byte`. -/
structure Key where
  raw : Slice Nat
deriving DecidableEq, Repr

/-- Dynamic types of the values held in an `interface{}`. -/
inductive GoType
  | nilType
  | sliceUint8
  | key
  | string
  | float64
  | other (name : String)
deriving DecidableEq, Repr

/-- A Go `interface{}` value, by dynamic type. `other` stands for a value of
any type that no type switch of the package mentions (`int`, `bool`, ...). -/
inductive Value
  | nil
  | bytes (b : Slice Nat)
  | key (k : Key)
  | str (s : GoString)
  | float64 (x : Float64)
  | other (typeName : String) (repr : String)
deriving DecidableEq, Repr

/-- Dynamic type of an interface value. -/
def Value.dynType : Value → GoType
  | .nil => .nilType
  | .bytes _ => .sliceUint8
  | .key _ => .key
  | .str _ => .string
  | .float64 _ => .float64
  | .other n _ => .other n

/-- Go `error` values of the package. -/
inductive GoError
  | ErrInvalidJSON
  | unsupportedType (text : GoString)
  | conversion
deriving DecidableEq, Repr

/-- The tree behind a `gjson.Result`.
`null`, `false_`, `true_`, `number`, `string` are the results of `Type`
`Null`, `False`, `True`, `Number`, `String`; the two others have `Type`
`JSON`: `array` when `IsArray()` holds (its argument is what `Array()`
returns), `object` otherwise (its argument is `Raw`). -/
inductive Result
  | null
  | false_
  | true_
  | number (num : Float64)
  | string (str : GoString)
  | array (elems : List Result)
  | object (raw : GoString)
deriving Repr

/-- Document represents a JSON document in `[]byte` format. -/
structure Document where
  raw : Slice Nat
deriving DecidableEq, Repr

/-- The external `gjson` package: `ValidBytes` and `GetBytes`. -/
structure Gjson where
  ValidBytes : Slice Nat → Bool
  GetBytes : Slice Nat → GoString → Result

/-! ## `document.go` -/

/-- Bytes of an ASCII text (used for the literals that `gjson` renders). -/
def asciiBytes (s : String) : Bytes := s.data.map Char.toNat

/-- `Result.String()` of `gjson`: `"false"`, `"true"`, `Raw` for an object,
`Str` for a string, the empty string for null. On a number and on an array
`gjson` renders `Raw`, which the tree does not carry for them;
`valuesFromResult` calls `String()` on booleans and objects only. -/
def Result.String : Result → GoString
  | .false_ => ⟨asciiBytes "false"⟩
  | .true_ => ⟨asciiBytes "true"⟩
  | .object raw => raw
  | .string s => s
  | _ => ⟨[]⟩

mutual
/-- `valuesFromResult` of document.go. -/
def valuesFromResult : Result → Slice Value × Option GoError
  | .string s => (some [Value.str s], none)
  | .number n => (some [Value.float64 n], none)
  | .null => (some [], none)
  | .array elems => valuesFromResult.loop [] elems
  | r => (none, some (GoError.unsupportedType r.String))
/-- The `for _, subResult := range result.Array()` loop, `keys` being the
accumulator. -/
def valuesFromResult.loop (keys : List Value) : List Result → Slice Value × Option GoError
  | [] => (some keys, none)
  | subResult :: rest =>
    match valuesFromResult subResult with
    | (subKeys, none) => valuesFromResult.loop (keys ++ subKeys.getD []) rest
    | (_, some err) => (none, some err)
end

/-- `Document.Bytes` returns the raw bytes. -/
def Document.Bytes (d : Document) : Slice Nat := d.raw

/-- `DocumentFromString` creates a Document from a JSON string. -/
def DocumentFromString (json : GoString) : Document := ⟨some json.bytes⟩

/-- `DocumentFromBytes` creates a Document from a JSON byte slice. -/
def DocumentFromBytes (json : Slice Nat) : Document := ⟨json⟩

/-- `Document.ValuesAtPath` of document.go. -/
def Document.ValuesAtPath (g : Gjson) (d : Document) (jsonPath : GoString) :
    Slice Value × Option GoError :=
  if !g.ValidBytes d.raw then (none, some GoError.ErrInvalidJSON)
  else
    let result := g.GetBytes d.raw jsonPath
    valuesFromResult result

/-! ## `types.go` -/

/-- `KeyDelimiter` of types.go. -/
def KeyDelimiter : Nat := 0x10

/-- `math.Float64bits`: the IEEE-754 bit pattern, a `uint64`. -/
def Float64bits (x : Float64) : Nat := x.bits % 2 ^ 64

/-- `binary.BigEndian.PutUint64` on a fresh 8-byte buffer:
`b[0] = byte(v >> 56)`, ..., `b[7] = byte(v)`. -/
def PutUint64 (v : Nat) : Bytes :=
  [(v >>> 56) % 256, (v >>> 48) % 256, (v >>> 40) % 256, (v >>> 32) % 256,
   (v >>> 24) % 256, (v >>> 16) % 256, (v >>> 8) % 256, v % 256]

/-- `toBytes` of types.go: a type switch on the dynamic type of `data`. -/
def toBytes : Value → Slice Nat × Option GoError
  | .bytes b => (b, none)
  | .str s => (some s.bytes, none)
  | .float64 x => (some (PutUint64 (Float64bits x)), none)
  | _ => (none, some GoError.conversion)

/-! ## `document.go`, continued -/

/-- The `for i, rk := range rawKeys` loop of `KeysAtPath`: `keys[i] = key`
with `key, _ := toBytes(rk)`, the error being dropped. -/
def Document.KeysAtPath.loop : Nat → List Value → List Key → List Key
  | _, [], keys => keys
  | i, rk :: rest, keys =>
    Document.KeysAtPath.loop (i + 1) rest (keys.set i ⟨(toBytes rk).1⟩)

/-- `Document.KeysAtPath` of document.go. -/
def Document.KeysAtPath (g : Gjson) (d : Document) (jsonPath : GoString) :
    Slice Key × Option GoError :=
  match d.ValuesAtPath g jsonPath with
  | (_, some err) => (none, some err)
  | (rawKeys, none) =>
    let keys := List.replicate (Slice.len rawKeys) (Key.mk none)
    (some (Document.KeysAtPath.loop 0 (rawKeys.getD []) keys), none)

/-! ## Text and UTF-8 -/

/-- UTF-8 encoding of one Unicode scalar value. -/
def utf8EncodeRune (c : Nat) : Bytes :=
  if c < 0x80 then [c]
  else if c < 0x800 then [0xC0 + c / 64, 0x80 + c % 64]
  else if c < 0x10000 then [0xE0 + c / 4096, 0x80 + c / 64 % 64, 0x80 + c % 64]
  else [0xF0 + c / 262144, 0x80 + c / 4096 % 64, 0x80 + c / 64 % 64, 0x80 + c % 64]

/-- UTF-8 encoding of a text. -/
def utf8Encode (t : String) : Bytes :=
  t.data.flatMap fun c => utf8EncodeRune c.toNat

/-- The Go string that holds a text: its UTF-8 bytes. -/
def GoString.ofText (t : String) : GoString := ⟨utf8Encode t⟩

/-- A UTF-8 continuation byte `10xxxxxx`. -/
def isCont (b : Nat) : Prop := 0x80 ≤ b ∧ b < 0xC0

instance (b : Nat) : Decidable (isCont b) := by unfold isCont; infer_instance

/-- The scalar value of a two-byte sequence `110xxxxx 10xxxxxx` in shortest
form. -/
def rune2 (b0 b1 : Nat) : Option Nat :=
  if 0xC2 ≤ b0 ∧ isCont b1 then some ((b0 - 0xC0) * 64 + (b1 - 0x80)) else none

/-- The scalar value of a three-byte sequence `1110xxxx 10xxxxxx 10xxxxxx` in
shortest form, surrogates excluded. -/
def rune3 (b0 b1 b2 : Nat) : Option Nat :=
  let c := (b0 - 0xE0) * 4096 + (b1 - 0x80) * 64 + (b2 - 0x80)
  if isCont b1 ∧ isCont b2 ∧ 0x800 ≤ c ∧ ¬ (0xD800 ≤ c ∧ c < 0xE000) then some c else none

/-- The scalar value of a four-byte sequence
`11110xxx 10xxxxxx 10xxxxxx 10xxxxxx` in shortest form, up to `U+10FFFF`. -/
def rune4 (b0 b1 b2 b3 : Nat) : Option Nat :=
  let c := (b0 - 0xF0) * 262144 + (b1 - 0x80) * 4096 + (b2 - 0x80) * 64 + (b3 - 0x80)
  if b0 < 0xF8 ∧ isCont b1 ∧ isCont b2 ∧ isCont b3 ∧ 0x10000 ≤ c ∧ c < 0x110000
  then some c else none

/-- Prepends a decoded scalar value, if there is one, to the decoded rest. -/
def consRune (c : Option Nat) (rest : Option (List Nat)) : Option (List Nat) :=
  match c, rest with
  | some c, some cs => some (c :: cs)
  | _, _ => none

/-- Strict UTF-8 decoding (RFC 3629) into scalar values: shortest form only,
no surrogates, nothing above `U+10FFFF`; `none` on any malformed input. -/
def utf8DecodeRunes : Bytes → Option (List Nat)
  | [] => some []
  | b0 :: rest =>
    if b0 < 0x80 then consRune (some b0) (utf8DecodeRunes rest)
    else if b0 < 0xE0 then
      match rest with
      | b1 :: rest1 => consRune (rune2 b0 b1) (utf8DecodeRunes rest1)
      | _ => none
    else if b0 < 0xF0 then
      match rest with
      | b1 :: b2 :: rest2 => consRune (rune3 b0 b1 b2) (utf8DecodeRunes rest2)
      | _ => none
    else
      match rest with
      | b1 :: b2 :: b3 :: rest3 => consRune (rune4 b0 b1 b2 b3) (utf8DecodeRunes rest3)
      | _ => none

/-- Strict UTF-8 decoding of a byte sequence into a text. -/
def utf8Decode (bs : Bytes) : Option String :=
  (utf8DecodeRunes bs).map fun cs => String.mk (cs.map Char.ofNat)

/-! ## Specification-side definitions -/

/-- Big-endian value of a byte sequence: the most significant byte first. -/
def bigEndianValue (bs : Bytes) : Nat :=
  bs.foldl (fun acc b => acc * 256 + b) 0

mutual
/-- A node built only from text, number, null and (nested) array nodes. -/
def Result.scalarsOnly : Result → Bool
  | .string _ => true
  | .number _ => true
  | .null => true
  | .array elems => Result.scalarsOnlyList elems
  | _ => false
/-- Every node of the list is built only from text, number, null and arrays. -/
def Result.scalarsOnlyList : List Result → Bool
  | [] => true
  | r :: rs => r.scalarsOnly && Result.scalarsOnlyList rs
end

mutual
/-- The node is an object or a boolean, or an array that contains one at any
nesting depth. -/
def Result.hasUnsupported : Result → Bool
  | .object _ => true
  | .false_ => true
  | .true_ => true
  | .array elems => Result.hasUnsupportedList elems
  | _ => false
/-- Some node of the list is or contains an object or a boolean. -/
def Result.hasUnsupportedList : List Result → Bool
  | [] => false
  | r :: rs => r.hasUnsupported || Result.hasUnsupportedList rs
end

mutual
/-- The text and number leaves of a node, depth first, left to right. -/
def Result.leaves : Result → List Value
  | .string s => [Value.str s]
  | .number n => [Value.float64 n]
  | .array elems => Result.leavesList elems
  | _ => []
/-- The leaves of the nodes of a list, in list order. -/
def Result.leavesList : List Result → List Value
  | [] => []
  | r :: rs => r.leaves ++ Result.leavesList rs
end

/-- The evaluator that answers `valid` to every validity check and matches
the node `r` at every path (used in the examples). -/
def constGjson (valid : Bool) (r : Result) : Gjson :=
  ⟨fun _ => valid, fun _ _ => r⟩

/-! ## Error texts -/

/-- The text of an error (`Error()`): the literal of `errors.New`, and for
`fmt.Errorf("type at path not supported for indexing: %s", result.String())`
the literal followed by the string. -/
def GoError.message : GoError → GoString
  | .ErrInvalidJSON => ⟨asciiBytes "invalid json"⟩
  | .unsupportedType text =>
    ⟨asciiBytes "type at path not supported for indexing: " ++ text.bytes⟩
  | .conversion => ⟨asciiBytes "couldn't convert data to []byte"⟩

mutual
/-- The first object or boolean node of a tree in depth-first, left-to-right
order, arrays being descended into. -/
def Result.firstUnsupported : Result → Option Result
  | .object raw => some (Result.object raw)
  | .false_ => some Result.false_
  | .true_ => some Result.true_
  | .array elems => Result.firstUnsupportedList elems
  | _ => none
/-- The first object or boolean node of a list of trees. -/
def Result.firstUnsupportedList : List Result → Option Result
  | [] => none
  | r :: rs =>
    match r.firstUnsupported with
    | some n => some n
    | none => Result.firstUnsupportedList rs
end

/-! ## `types.go`: Reference -/

/-- Reference equals a document hash; a `[]byte`. -/
structure Reference where
  raw : Slice Nat
deriving DecidableEq, Repr

/-- `hextable` of `encoding/hex`. -/
def hextable : Bytes := asciiBytes "0123456789abcdef"

/-- `hex.Encode`: for each byte `v`, `hextable[v>>4]` then `hextable[v&0x0f]`. -/
def hexEncode (src : Bytes) : Bytes :=
  src.flatMap fun v => [hextable.getD (v >>> 4) 0, hextable.getD (v &&& 0x0f) 0]

/-- `Reference.EncodeToString` encodes the reference as hex encoded string
(`hex.EncodeToString`). -/
def Reference.EncodeToString (r : Reference) : GoString :=
  ⟨hexEncode (r.raw.getD [])⟩

/-- `Reference.ByteSize` returns the size of the reference. -/
def Reference.ByteSize (r : Reference) : Nat := Slice.len r.raw

/-- Every element is a Go `byte`. -/
def wellFormedBytes (bs : Bytes) : Prop := ∀ b ∈ bs, b < 256

instance (bs : Bytes) : Decidable (wellFormedBytes bs) := by
  unfold wellFormedBytes; infer_instance

/-- Value of a hexadecimal digit (`fromHexChar` of `encoding/hex`). -/
def fromHexChar (c : Nat) : Option Nat :=
  if 48 ≤ c ∧ c ≤ 57 then some (c - 48)
  else if 97 ≤ c ∧ c ≤ 102 then some (c - 97 + 10)
  else if 65 ≤ c ∧ c ≤ 70 then some (c - 65 + 10)
  else none

/-- Hex decoding (`hex.Decode`): two digits per byte, high digit first;
`none` on an odd length or a character that is no hexadecimal digit. -/
def hexDecode : Bytes → Option Bytes
  | [] => some []
  | [_] => none
  | hi :: lo :: rest =>
    match fromHexChar hi, fromHexChar lo, hexDecode rest with
    | some a, some b, some bs => some ((a * 16 + b) :: bs)
    | _, _, _ => none

/-- A lowercase hexadecimal digit `0-9a-f`. -/
def isLowerHexDigit (c : Nat) : Prop := (48 ≤ c ∧ c ≤ 57) ∨ (97 ≤ c ∧ c ≤ 102)

instance (c : Nat) : Decidable (isLowerHexDigit c) := by
  unfold isLowerHexDigit; infer_instance

/-- The lowercase hexadecimal digit of a value below 16. -/
def lowerHexDigit (n : Nat) : Nat := if n < 10 then 48 + n else 87 + n

/-! ## Ordering of keys -/

/-- Byte-wise lexicographic comparison of two byte sequences
(`bytes.Compare`). -/
def bytesCompare : Bytes → Bytes → Ordering
  | [], [] => Ordering.eq
  | [], _ :: _ => Ordering.lt
  | _ :: _, [] => Ordering.gt
  | a :: as, b :: bs =>
    if a < b then Ordering.lt else if b < a then Ordering.gt else bytesCompare as bs

/-- The value of the finite non-negative float64 with bit pattern `b`
(exponent field `b / 2 ^ 52`, fraction `b % 2 ^ 52`), in units of
`2 ^ (-1074)`: the fraction for a subnormal, `(2 ^ 52 + fraction) *
2 ^ (exponent - 1)` otherwise. -/
def scaledValue (b : Nat) : Nat :=
  if b / 2 ^ 52 = 0 then b % 2 ^ 52 else (2 ^ 52 + b % 2 ^ 52) * 2 ^ (b / 2 ^ 52 - 1)

/-! ## `transform.go` -/

/-- What `ToLower` uses from outside the sources: `unicode.ToLower` of the
Go standard library (a table of the Unicode character database), and the
method `String` of `Key`, whose declaration is not among the sources. -/
structure Env where
  unicodeToLower : Char → Char
  keyString : Key → GoString

/-- Decoding of a Go string into runes as `for _, c := range s` does it:
well-formed UTF-8 sequences give their scalar value, and a byte that starts
no well-formed sequence gives `U+FFFD` and is skipped alone. -/
def decodeRunesLossy : Bytes → List Nat
  | [] => []
  | b0 :: rest =>
    let tail := decodeRunesLossy rest
    if b0 < 0x80 then b0 :: tail
    else if b0 < 0xE0 then
      match rest with
      | b1 :: rest1 =>
        match rune2 b0 b1 with
        | some c => c :: decodeRunesLossy rest1
        | none => 0xFFFD :: tail
      | _ => 0xFFFD :: tail
    else if b0 < 0xF0 then
      match rest with
      | b1 :: b2 :: rest2 =>
        match rune3 b0 b1 b2 with
        | some c => c :: decodeRunesLossy rest2
        | none => 0xFFFD :: tail
      | _ => 0xFFFD :: tail
    else
      match rest with
      | b1 :: b2 :: b3 :: rest3 =>
        match rune4 b0 b1 b2 b3 with
        | some c => c :: decodeRunesLossy rest3
        | none => 0xFFFD :: tail
      | _ => 0xFFFD :: tail

/-- `strings.ToLower`, by its documented behaviour: every rune of the string
is mapped by `unicode.ToLower` and the results are encoded in UTF-8. -/
def stringsToLower (lower : Char → Char) (s : GoString) : GoString :=
  ⟨(decodeRunesLossy s.bytes).flatMap fun c => utf8EncodeRune (lower (Char.ofNat c)).toNat⟩

/-- `ToLower` of transform.go: a type switch on the dynamic type of `terms`;
`string(terms.([]byte))` of a nil slice is the empty string. -/
def ToLower (env : Env) : Value → Value
  | .str s => Value.str (stringsToLower env.unicodeToLower s)
  | .key k => Value.str (stringsToLower env.unicodeToLower (env.keyString k))
  | .bytes b => Value.str (stringsToLower env.unicodeToLower ⟨b.getD []⟩)
  | terms => terms

/-- The class `\s` of Go regular expressions: tab, newline, form feed,
carriage return and space; `\S` is its complement. -/
def isSpace (c : Nat) : Bool := c == 9 || c == 10 || c == 12 || c == 13 || c == 32

/-- The successive matches of `\S+` in a sequence, as `FindAllString` collects
them: the search skips to the first element outside `sp`, the greedy `+` takes
the longest run of such elements, and the search resumes after the match;
`fuel` bounds the number of matches. -/
def findAllNonSpace {α : Type} (sp : α → Bool) : Nat → List α → List (List α)
  | 0, _ => []
  | fuel + 1, s =>
    match s.dropWhile sp with
    | [] => []
    | a :: rest =>
      (a :: rest).takeWhile (fun c => !sp c) ::
        findAllNonSpace sp fuel ((a :: rest).dropWhile (fun c => !sp c))

/-- The maximal runs of elements outside `sp`: a match has at least one
element, so one more round than the length always suffices. -/
def nonSpaceRuns {α : Type} (sp : α → Bool) (s : List α) : List (List α) :=
  findAllNonSpace sp (s.length + 1) s

/-- `exp.FindAllString(text, -1)` for `exp` compiled from `\S+`: the matches
in order, the nil slice when there is none. The `regexp` package reads the
string rune by rune; the five characters of `\s` are ASCII and an ASCII byte
is always a rune of its own, so the runs of runes outside `\s` are the runs of
bytes outside `\s`. -/
def FindAllString (text : GoString) : Slice GoString :=
  match nonSpaceRuns isSpace text.bytes with
  | [] => none
  | m :: ms => some ((m :: ms).map GoString.mk)

/-- `WhiteSpaceTokenizer` tokenizes the string based on the `\S+` regex. -/
def WhiteSpaceTokenizer (text : GoString) : Slice GoString :=
  FindAllString text

/-- The sequence `w0 ++ t1 ++ w1 ++ ... ++ tn ++ wn` made of the separators
`w0 .. wn` and the tokens `t1 .. tn`. -/
def weave {α : Type} : List (List α) → List (List α) → List α
  | [], _ => []
  | w :: _, [] => w
  | w :: seps, t :: toks => w ++ t ++ weave seps toks

/-- `toks` are maximal runs of non-whitespace of `text`, `seps` being what
surrounds them: `text` is `w0 t1 w1 ... tn wn`, every separator is whitespace
only, every token is non-empty and free of whitespace, and the separators
between two tokens are non-empty. -/
def IsRunDecomposition {α : Type} (sp : α → Bool) (text : List α)
    (toks seps : List (List α)) : Prop :=
  seps.length = toks.length + 1 ∧
  weave seps toks = text ∧
  (∀ w ∈ seps, ∀ c ∈ w, sp c = true) ∧
  (∀ t ∈ toks, t ≠ [] ∧ ∀ c ∈ t, sp c = false) ∧
  (∀ w ∈ seps.tail.dropLast, w ≠ [])

/-- An environment for the examples: ASCII lower-casing for `unicode.ToLower`
(the two agree on ASCII) and the bytes of the key for `Key.String`. -/
def exampleEnv : Env := ⟨Char.toLower, fun k => ⟨k.raw.getD []⟩⟩

/-! ## `unicode.ToLower` -/

/-- A run of the lower-case table: the code points `lo, lo + stride, ..., hi`
have the lower-case forms `tlo, tlo + stride, ...`. -/
structure CaseRun where
  lo : Nat
  hi : Nat
  stride : Nat
  tlo : Nat
deriving DecidableEq, Repr

/-- The code point `r` belongs to the run. -/
def CaseRun.covers (e : CaseRun) (r : Nat) : Bool :=
  decide (e.lo ≤ r) && decide (r ≤ e.hi) && (r - e.lo) % e.stride == 0

/-- The lower-case mapping of the Unicode Character Database 14.0.0
(`Simple_Lowercase_Mapping`), the data that the `CaseRanges` table of Go's
`unicode` package holds for `LowerCase`: every code point that is not its own
lower case, in runs of increasing code points. -/
def lowerCaseRuns : List CaseRun :=
  [CaseRun.mk 0x0041 0x005A 1 0x0061, CaseRun.mk 0x00C0 0x00D6 1 0x00E0,
   CaseRun.mk 0x00D8 0x00DE 1 0x00F8, CaseRun.mk 0x0100 0x012E 2 0x0101,
   CaseRun.mk 0x0130 0x0130 1 0x0069, CaseRun.mk 0x0132 0x0136 2 0x0133,
   CaseRun.mk 0x0139 0x0147 2 0x013A, CaseRun.mk 0x014A 0x0176 2 0x014B,
   CaseRun.mk 0x0178 0x0178 1 0x00FF, CaseRun.mk 0x0179 0x017D 2 0x017A,
   CaseRun.mk 0x0181 0x0181 1 0x0253, CaseRun.mk 0x0182 0x0184 2 0x0183,
   CaseRun.mk 0x0186 0x0186 1 0x0254, CaseRun.mk 0x0187 0x0187 1 0x0188,
   CaseRun.mk 0x0189 0x018A 1 0x0256, CaseRun.mk 0x018B 0x018B 1 0x018C,
   CaseRun.mk 0x018E 0x018E 1 0x01DD, CaseRun.mk 0x018F 0x018F 1 0x0259,
   CaseRun.mk 0x0190 0x0190 1 0x025B, CaseRun.mk 0x0191 0x0191 1 0x0192,
   CaseRun.mk 0x0193 0x0193 1 0x0260, CaseRun.mk 0x0194 0x0194 1 0x0263,
   CaseRun.mk 0x0196 0x0196 1 0x0269, CaseRun.mk 0x0197 0x0197 1 0x0268,
   CaseRun.mk 0x0198 0x0198 1 0x0199, CaseRun.mk 0x019C 0x019C 1 0x026F,
   CaseRun.mk 0x019D 0x019D 1 0x0272, CaseRun.mk 0x019F 0x019F 1 0x0275,
   CaseRun.mk 0x01A0 0x01A4 2 0x01A1, CaseRun.mk 0x01A6 0x01A6 1 0x0280,
   CaseRun.mk 0x01A7 0x01A7 1 0x01A8, CaseRun.mk 0x01A9 0x01A9 1 0x0283,
   CaseRun.mk 0x01AC 0x01AC 1 0x01AD, CaseRun.mk 0x01AE 0x01AE 1 0x0288,
   CaseRun.mk 0x01AF 0x01AF 1 0x01B0, CaseRun.mk 0x01B1 0x01B2 1 0x028A,
   CaseRun.mk 0x01B3 0x01B5 2 0x01B4, CaseRun.mk 0x01B7 0x01B7 1 0x0292,
   CaseRun.mk 0x01B8 0x01B8 1 0x01B9, CaseRun.mk 0x01BC 0x01BC 1 0x01BD,
   CaseRun.mk 0x01C4 0x01C4 1 0x01C6, CaseRun.mk 0x01C5 0x01C5 1 0x01C6,
   CaseRun.mk 0x01C7 0x01C7 1 0x01C9, CaseRun.mk 0x01C8 0x01C8 1 0x01C9,
   CaseRun.mk 0x01CA 0x01CA 1 0x01CC, CaseRun.mk 0x01CB 0x01DB 2 0x01CC,
   CaseRun.mk 0x01DE 0x01EE 2 0x01DF, CaseRun.mk 0x01F1 0x01F1 1 0x01F3,
   CaseRun.mk 0x01F2 0x01F4 2 0x01F3, CaseRun.mk 0x01F6 0x01F6 1 0x0195,
   CaseRun.mk 0x01F7 0x01F7 1 0x01BF, CaseRun.mk 0x01F8 0x021E 2 0x01F9,
   CaseRun.mk 0x0220 0x0220 1 0x019E, CaseRun.mk 0x0222 0x0232 2 0x0223,
   CaseRun.mk 0x023A 0x023A 1 0x2C65, CaseRun.mk 0x023B 0x023B 1 0x023C,
   CaseRun.mk 0x023D 0x023D 1 0x019A, CaseRun.mk 0x023E 0x023E 1 0x2C66,
   CaseRun.mk 0x0241 0x0241 1 0x0242, CaseRun.mk 0x0243 0x0243 1 0x0180,
   CaseRun.mk 0x0244 0x0244 1 0x0289, CaseRun.mk 0x0245 0x0245 1 0x028C,
   CaseRun.mk 0x0246 0x024E 2 0x0247, CaseRun.mk 0x0370 0x0372 2 0x0371,
   CaseRun.mk 0x0376 0x0376 1 0x0377, CaseRun.mk 0x037F 0x037F 1 0x03F3,
   CaseRun.mk 0x0386 0x0386 1 0x03AC, CaseRun.mk 0x0388 0x038A 1 0x03AD,
   CaseRun.mk 0x038C 0x038C 1 0x03CC, CaseRun.mk 0x038E 0x038F 1 0x03CD,
   CaseRun.mk 0x0391 0x03A1 1 0x03B1, CaseRun.mk 0x03A3 0x03AB 1 0x03C3,
   CaseRun.mk 0x03CF 0x03CF 1 0x03D7, CaseRun.mk 0x03D8 0x03EE 2 0x03D9,
   CaseRun.mk 0x03F4 0x03F4 1 0x03B8, CaseRun.mk 0x03F7 0x03F7 1 0x03F8,
   CaseRun.mk 0x03F9 0x03F9 1 0x03F2, CaseRun.mk 0x03FA 0x03FA 1 0x03FB,
   CaseRun.mk 0x03FD 0x03FF 1 0x037B, CaseRun.mk 0x0400 0x040F 1 0x0450,
   CaseRun.mk 0x0410 0x042F 1 0x0430, CaseRun.mk 0x0460 0x0480 2 0x0461,
   CaseRun.mk 0x048A 0x04BE 2 0x048B, CaseRun.mk 0x04C0 0x04C0 1 0x04CF,
   CaseRun.mk 0x04C1 0x04CD 2 0x04C2, CaseRun.mk 0x04D0 0x052E 2 0x04D1,
   CaseRun.mk 0x0531 0x0556 1 0x0561, CaseRun.mk 0x10A0 0x10C5 1 0x2D00,
   CaseRun.mk 0x10C7 0x10C7 1 0x2D27, CaseRun.mk 0x10CD 0x10CD 1 0x2D2D,
   CaseRun.mk 0x13A0 0x13EF 1 0xAB70, CaseRun.mk 0x13F0 0x13F5 1 0x13F8,
   CaseRun.mk 0x1C90 0x1CBA 1 0x10D0, CaseRun.mk 0x1CBD 0x1CBF 1 0x10FD,
   CaseRun.mk 0x1E00 0x1E94 2 0x1E01, CaseRun.mk 0x1E9E 0x1E9E 1 0x00DF,
   CaseRun.mk 0x1EA0 0x1EFE 2 0x1EA1, CaseRun.mk 0x1F08 0x1F0F 1 0x1F00,
   CaseRun.mk 0x1F18 0x1F1D 1 0x1F10, CaseRun.mk 0x1F28 0x1F2F 1 0x1F20,
   CaseRun.mk 0x1F38 0x1F3F 1 0x1F30, CaseRun.mk 0x1F48 0x1F4D 1 0x1F40,
   CaseRun.mk 0x1F59 0x1F5F 2 0x1F51, CaseRun.mk 0x1F68 0x1F6F 1 0x1F60,
   CaseRun.mk 0x1F88 0x1F8F 1 0x1F80, CaseRun.mk 0x1F98 0x1F9F 1 0x1F90,
   CaseRun.mk 0x1FA8 0x1FAF 1 0x1FA0, CaseRun.mk 0x1FB8 0x1FB9 1 0x1FB0,
   CaseRun.mk 0x1FBA 0x1FBB 1 0x1F70, CaseRun.mk 0x1FBC 0x1FBC 1 0x1FB3,
   CaseRun.mk 0x1FC8 0x1FCB 1 0x1F72, CaseRun.mk 0x1FCC 0x1FCC 1 0x1FC3,
   CaseRun.mk 0x1FD8 0x1FD9 1 0x1FD0, CaseRun.mk 0x1FDA 0x1FDB 1 0x1F76,
   CaseRun.mk 0x1FE8 0x1FE9 1 0x1FE0, CaseRun.mk 0x1FEA 0x1FEB 1 0x1F7A,
   CaseRun.mk 0x1FEC 0x1FEC 1 0x1FE5, CaseRun.mk 0x1FF8 0x1FF9 1 0x1F78,
   CaseRun.mk 0x1FFA 0x1FFB 1 0x1F7C, CaseRun.mk 0x1FFC 0x1FFC 1 0x1FF3,
   CaseRun.mk 0x2126 0x2126 1 0x03C9, CaseRun.mk 0x212A 0x212A 1 0x006B,
   CaseRun.mk 0x212B 0x212B 1 0x00E5, CaseRun.mk 0x2132 0x2132 1 0x214E,
   CaseRun.mk 0x2160 0x216F 1 0x2170, CaseRun.mk 0x2183 0x2183 1 0x2184,
   CaseRun.mk 0x24B6 0x24CF 1 0x24D0, CaseRun.mk 0x2C00 0x2C2F 1 0x2C30,
   CaseRun.mk 0x2C60 0x2C60 1 0x2C61, CaseRun.mk 0x2C62 0x2C62 1 0x026B,
   CaseRun.mk 0x2C63 0x2C63 1 0x1D7D, CaseRun.mk 0x2C64 0x2C64 1 0x027D,
   CaseRun.mk 0x2C67 0x2C6B 2 0x2C68, CaseRun.mk 0x2C6D 0x2C6D 1 0x0251,
   CaseRun.mk 0x2C6E 0x2C6E 1 0x0271, CaseRun.mk 0x2C6F 0x2C6F 1 0x0250,
   CaseRun.mk 0x2C70 0x2C70 1 0x0252, CaseRun.mk 0x2C72 0x2C72 1 0x2C73,
   CaseRun.mk 0x2C75 0x2C75 1 0x2C76, CaseRun.mk 0x2C7E 0x2C7F 1 0x023F,
   CaseRun.mk 0x2C80 0x2CE2 2 0x2C81, CaseRun.mk 0x2CEB 0x2CED 2 0x2CEC,
   CaseRun.mk 0x2CF2 0x2CF2 1 0x2CF3, CaseRun.mk 0xA640 0xA66C 2 0xA641,
   CaseRun.mk 0xA680 0xA69A 2 0xA681, CaseRun.mk 0xA722 0xA72E 2 0xA723,
   CaseRun.mk 0xA732 0xA76E 2 0xA733, CaseRun.mk 0xA779 0xA77B 2 0xA77A,
   CaseRun.mk 0xA77D 0xA77D 1 0x1D79, CaseRun.mk 0xA77E 0xA786 2 0xA77F,
   CaseRun.mk 0xA78B 0xA78B 1 0xA78C, CaseRun.mk 0xA78D 0xA78D 1 0x0265,
   CaseRun.mk 0xA790 0xA792 2 0xA791, CaseRun.mk 0xA796 0xA7A8 2 0xA797,
   CaseRun.mk 0xA7AA 0xA7AA 1 0x0266, CaseRun.mk 0xA7AB 0xA7AB 1 0x025C,
   CaseRun.mk 0xA7AC 0xA7AC 1 0x0261, CaseRun.mk 0xA7AD 0xA7AD 1 0x026C,
   CaseRun.mk 0xA7AE 0xA7AE 1 0x026A, CaseRun.mk 0xA7B0 0xA7B0 1 0x029E,
   CaseRun.mk 0xA7B1 0xA7B1 1 0x0287, CaseRun.mk 0xA7B2 0xA7B2 1 0x029D,
   CaseRun.mk 0xA7B3 0xA7B3 1 0xAB53, CaseRun.mk 0xA7B4 0xA7C2 2 0xA7B5,
   CaseRun.mk 0xA7C4 0xA7C4 1 0xA794, CaseRun.mk 0xA7C5 0xA7C5 1 0x0282,
   CaseRun.mk 0xA7C6 0xA7C6 1 0x1D8E, CaseRun.mk 0xA7C7 0xA7C9 2 0xA7C8,
   CaseRun.mk 0xA7D0 0xA7D0 1 0xA7D1, CaseRun.mk 0xA7D6 0xA7D8 2 0xA7D7,
   CaseRun.mk 0xA7F5 0xA7F5 1 0xA7F6, CaseRun.mk 0xFF21 0xFF3A 1 0xFF41,
   CaseRun.mk 0x10400 0x10427 1 0x10428, CaseRun.mk 0x104B0 0x104D3 1 0x104D8,
   CaseRun.mk 0x10570 0x1057A 1 0x10597, CaseRun.mk 0x1057C 0x1058A 1 0x105A3,
   CaseRun.mk 0x1058C 0x10592 1 0x105B3, CaseRun.mk 0x10594 0x10595 1 0x105BB,
   CaseRun.mk 0x10C80 0x10CB2 1 0x10CC0, CaseRun.mk 0x118A0 0x118BF 1 0x118C0,
   CaseRun.mk 0x16E40 0x16E5F 1 0x16E60, CaseRun.mk 0x1E900 0x1E921 1 0x1E922]

/-- `unicode.ToLower` on code points, over a table of runs: the lower-case
form given by the first run that covers `r`, and `r` itself if none does. -/
def toLowerRuneIn (table : List CaseRun) (r : Nat) : Nat :=
  match table.find? (fun e => e.covers r) with
  | some e => e.tlo + (r - e.lo)
  | none => r

/-- `unicode.ToLower` of the Go standard library. -/
def unicodeToLower (c : Char) : Char :=
  Char.ofNat (toLowerRuneIn lowerCaseRuns c.toNat)

/-- The environment of the Go standard library, for a given `String` method
of `Key`. -/
def goEnv (keyString : Key → GoString) : Env := ⟨unicodeToLower, keyString⟩

/-- No lower-case form of the run `e` belongs to the run `e2`: the two lie
apart, or `e2` holds every second code point and the forms of `e` are the
ones in between. -/
def CaseRun.imageMisses (e e2 : CaseRun) : Bool :=
  decide (e.tlo + (e.hi - e.lo) < e2.lo) || decide (e2.hi < e.tlo) ||
    ((e.stride == 2 || e.lo == e.hi) && e2.stride == 2 && (e.tlo + e2.lo) % 2 == 1)

/-- The lower-case forms of the run are Unicode scalar values above the
ASCII space. -/
def CaseRun.imageValid (e : CaseRun) : Bool :=
  decide (33 ≤ e.lo) && decide (33 ≤ e.tlo) &&
    (decide (e.tlo + (e.hi - e.lo) < 0xD800) ||
      (decide (0xDFFF < e.tlo) && decide (e.tlo + (e.hi - e.lo) < 0x110000)))

/-! ## Flattening: shared lemmas -/

theorem leavesList_eq_flatMap (es : List Result) :
    Result.leavesList es = es.flatMap Result.leaves := by
  induction es with
  | nil => rfl
  | cons r rs ih => simp [Result.leavesList, ih]

mutual
theorem scalarsOnly_eq_not_hasUnsupported :
    ∀ r : Result, r.scalarsOnly = !r.hasUnsupported
  | .null => rfl
  | .false_ => rfl
  | .true_ => rfl
  | .number _ => rfl
  | .string _ => rfl
  | .object _ => rfl
  | .array es => by
    simp only [Result.scalarsOnly, Result.hasUnsupported]
    exact scalarsOnlyList_eq_not_hasUnsupportedList es
theorem scalarsOnlyList_eq_not_hasUnsupportedList :
    ∀ es : List Result, Result.scalarsOnlyList es = !Result.hasUnsupportedList es
  | [] => rfl
  | r :: rs => by
    simp only [Result.scalarsOnlyList, Result.hasUnsupportedList,
      scalarsOnly_eq_not_hasUnsupported r, scalarsOnlyList_eq_not_hasUnsupportedList rs,
      Bool.not_or]
end

mutual
theorem valuesFromResult_of_supported :
    ∀ r : Result, r.hasUnsupported = false → valuesFromResult r = (some r.leaves, none)
  | .null, _ => rfl
  | .number _, _ => rfl
  | .string _, _ => rfl
  | .false_, h => by simp [Result.hasUnsupported] at h
  | .true_, h => by simp [Result.hasUnsupported] at h
  | .object _, h => by simp [Result.hasUnsupported] at h
  | .array es, h => by
    simp only [Result.hasUnsupported] at h
    simp only [valuesFromResult, Result.leaves]
    simpa using loop_of_supported [] es h
theorem loop_of_supported :
    ∀ (keys : List Value) (es : List Result), Result.hasUnsupportedList es = false →
      valuesFromResult.loop keys es = (some (keys ++ Result.leavesList es), none)
  | keys, [], _ => by simp [valuesFromResult.loop, Result.leavesList]
  | keys, r :: rs, h => by
    simp only [Result.hasUnsupportedList, Bool.or_eq_false_iff] at h
    simp only [valuesFromResult.loop, valuesFromResult_of_supported r h.1,
      loop_of_supported _ rs h.2, Result.leavesList, Option.getD_some, List.append_assoc]
end

mutual
theorem valuesFromResult_of_unsupported :
    ∀ r : Result, r.hasUnsupported = true → ∃ e, valuesFromResult r = (none, some e)
  | .null, h => by simp [Result.hasUnsupported] at h
  | .number _, h => by simp [Result.hasUnsupported] at h
  | .string _, h => by simp [Result.hasUnsupported] at h
  | .false_, _ => ⟨_, rfl⟩
  | .true_, _ => ⟨_, rfl⟩
  | .object _, _ => ⟨_, rfl⟩
  | .array es, h => by
    simp only [Result.hasUnsupported] at h
    simp only [valuesFromResult]
    exact loop_of_unsupported [] es h
theorem loop_of_unsupported :
    ∀ (keys : List Value) (es : List Result), Result.hasUnsupportedList es = true →
      ∃ e, valuesFromResult.loop keys es = (none, some e)
  | keys, [], h => by simp [Result.hasUnsupportedList] at h
  | keys, r :: rs, h => by
    cases hr : r.hasUnsupported with
    | true =>
      obtain ⟨e, he⟩ := valuesFromResult_of_unsupported r hr
      exact ⟨e, by simp only [valuesFromResult.loop, he]⟩
    | false =>
      simp only [Result.hasUnsupportedList, hr, Bool.false_or] at h
      obtain ⟨e, he⟩ := loop_of_unsupported (keys ++ r.leaves) rs h
      exact ⟨e, by
        simp only [valuesFromResult.loop, valuesFromResult_of_supported r hr,
          Option.getD_some, he]⟩
end

theorem valuesFromResult_shape (r : Result) :
    (r.hasUnsupported = false ∧ valuesFromResult r = (some r.leaves, none)) ∨
    (r.hasUnsupported = true ∧ ∃ e, valuesFromResult r = (none, some e)) := by
  cases h : r.hasUnsupported with
  | false => exact Or.inl ⟨rfl, valuesFromResult_of_supported r h⟩
  | true => exact Or.inr ⟨rfl, valuesFromResult_of_unsupported r h⟩

theorem loop_fail_fast :
    ∀ (keys : List Value) (pre : List Result) (bad : Result) (post : List Result)
      (e : GoError), Result.hasUnsupportedList pre = false →
      valuesFromResult bad = (none, some e) →
      valuesFromResult.loop keys (pre ++ bad :: post) = (none, some e)
  | keys, [], bad, post, e, _, hb => by
    simp only [List.nil_append, valuesFromResult.loop, hb]
  | keys, r :: rs, bad, post, e, h, hb => by
    simp only [Result.hasUnsupportedList, Bool.or_eq_false_iff] at h
    simp only [List.cons_append, valuesFromResult.loop, valuesFromResult_of_supported r h.1,
      Option.getD_some]
    exact loop_fail_fast _ rs bad post e h.2 hb

mutual
theorem leaves_text_or_number :
    ∀ (r : Result) (v : Value), v ∈ r.leaves →
      (∃ s, v = Value.str s) ∨ (∃ x, v = Value.float64 x)
  | .null, v, h => by simp [Result.leaves] at h
  | .false_, v, h => by simp [Result.leaves] at h
  | .true_, v, h => by simp [Result.leaves] at h
  | .object _, v, h => by simp [Result.leaves] at h
  | .number n, v, h => by
    simp only [Result.leaves, List.mem_singleton] at h
    exact Or.inr ⟨n, h⟩
  | .string s, v, h => by
    simp only [Result.leaves, List.mem_singleton] at h
    exact Or.inl ⟨s, h⟩
  | .array es, v, h => by
    simp only [Result.leaves] at h
    exact leavesList_text_or_number es v h
theorem leavesList_text_or_number :
    ∀ (es : List Result) (v : Value), v ∈ Result.leavesList es →
      (∃ s, v = Value.str s) ∨ (∃ x, v = Value.float64 x)
  | [], v, h => by simp [Result.leavesList] at h
  | r :: rs, v, h => by
    simp only [Result.leavesList, List.mem_append] at h
    rcases h with h | h
    · exact leaves_text_or_number r v h
    · exact leavesList_text_or_number rs v h
end

/-! ## Flattening: the claims -/

/-- C1: on a node built only from text, number, null and nested array nodes,
`valuesFromResult` succeeds with the depth-first, left-to-right sequence of the
text and number leaves; a text gives `[text]`, a number `[number]`, null the
empty sequence, an array the concatenation in order of the results of its
elements; `ValuesAtPath` returns the same when the evaluator matches the node. -/
theorem valuesFromResult_flattens (r : Result) (h : r.scalarsOnly = true) :
    valuesFromResult r = (some r.leaves, none) ∧
    (∀ s, valuesFromResult (Result.string s) = (some [Value.str s], none)) ∧
    (∀ n, valuesFromResult (Result.number n) = (some [Value.float64 n], none)) ∧
    valuesFromResult Result.null = (some [], none) ∧
    (∀ es, r = Result.array es →
      valuesFromResult r =
        (some (es.flatMap fun e => (valuesFromResult e).1.getD []), none) ∧
      r.leaves = es.flatMap Result.leaves) ∧
    (∀ (g : Gjson) (d : Document) (p : GoString), g.ValidBytes d.raw = true →
      g.GetBytes d.raw p = r → d.ValuesAtPath g p = (some r.leaves, none)) := by
  have hs : r.hasUnsupported = false := by
    have := scalarsOnly_eq_not_hasUnsupported r
    rw [h] at this
    simpa using this.symm
  have hr := valuesFromResult_of_supported r hs
  refine ⟨hr, fun _ => rfl, fun _ => rfl, rfl, ?_, ?_⟩
  · intro es hes
    subst hes
    have hl : (Result.array es).leaves = es.flatMap Result.leaves := by
      simp only [Result.leaves, leavesList_eq_flatMap]
    refine ⟨?_, hl⟩
    rw [hr, hl]
    simp only [Result.hasUnsupported] at hs
    congr 2
    clear hr hl h
    induction es with
    | nil => rfl
    | cons e es ih =>
      simp only [Result.hasUnsupportedList, Bool.or_eq_false_iff] at hs
      simp only [List.flatMap_cons, valuesFromResult_of_supported e hs.1, Option.getD_some,
        ih hs.2]
  · intro g d p hv hg
    simp only [Document.ValuesAtPath, hv, hg, hr]
    rfl

/-- Witness of C1: the array `[1, 2, null, "x"]` (numbers by bit pattern)
flattens to `[1, 2, "x"]`. -/
theorem valuesFromResult_flattens_witness :
    valuesFromResult (Result.array [Result.number ⟨0x3FF0000000000000⟩,
        Result.number ⟨0x4000000000000000⟩, Result.null, Result.string ⟨[120]⟩]) =
      (some [Value.float64 ⟨0x3FF0000000000000⟩, Value.float64 ⟨0x4000000000000000⟩,
        Value.str ⟨[120]⟩], none) ∧
    (DocumentFromString ⟨[]⟩).ValuesAtPath
        (constGjson true (Result.array [Result.number ⟨0x3FF0000000000000⟩,
          Result.number ⟨0x4000000000000000⟩, Result.null, Result.string ⟨[120]⟩])) ⟨[]⟩ =
      (some [Value.float64 ⟨0x3FF0000000000000⟩, Value.float64 ⟨0x4000000000000000⟩,
        Value.str ⟨[120]⟩], none) :=
  have w := valuesFromResult_flattens (Result.array [Result.number ⟨0x3FF0000000000000⟩,
    Result.number ⟨0x4000000000000000⟩, Result.null, Result.string ⟨[120]⟩]) (by decide)
  ⟨w.1, w.2.2.2.2.2 (constGjson true _) (DocumentFromString ⟨[]⟩) ⟨[]⟩ rfl rfl⟩

/-- C2: `valuesFromResult` returns an error exactly on an object, a boolean, or
an array containing one at any depth; with an error it returns the nil slice;
and in an array the error is the one of the first failing element, whatever
precedes (values already gathered) and whatever follows it. -/
theorem valuesFromResult_error_iff (r : Result) :
    ((valuesFromResult r).2 ≠ none ↔ r.hasUnsupported = true) ∧
    ((valuesFromResult r).2 ≠ none → (valuesFromResult r).1 = none) ∧
    ((valuesFromResult r).2 = none → (valuesFromResult r).1 ≠ none) ∧
    (∀ (pre : List Result) (bad : Result) (post : List Result) (e : GoError),
      r = Result.array (pre ++ bad :: post) → Result.hasUnsupportedList pre = false →
      valuesFromResult bad = (none, some e) → valuesFromResult r = (none, some e)) := by
  refine ⟨?_, ?_, ?_, ?_⟩
  · rcases valuesFromResult_shape r with ⟨h, hr⟩ | ⟨h, e, hr⟩ <;> simp [h, hr]
  · rcases valuesFromResult_shape r with ⟨h, hr⟩ | ⟨h, e, hr⟩ <;> simp [hr]
  · rcases valuesFromResult_shape r with ⟨h, hr⟩ | ⟨h, e, hr⟩ <;> simp [hr]
  · intro pre bad post e hr hp hb
    subst hr
    simp only [valuesFromResult]
    exact loop_fail_fast [] pre bad post e hp hb

/-- Witness of C2: in `[1, {"x":1}, true]` the object fails the whole call,
the number gathered before it is discarded. -/
theorem valuesFromResult_error_iff_witness :
    valuesFromResult (Result.array [Result.number ⟨0x3FF0000000000000⟩,
        Result.object ⟨[123, 34, 120, 34, 58, 49, 125]⟩, Result.true_]) =
      (none, some (GoError.unsupportedType ⟨[123, 34, 120, 34, 58, 49, 125]⟩)) :=
  (valuesFromResult_error_iff _).2.2.2 [Result.number ⟨0x3FF0000000000000⟩]
    (Result.object ⟨[123, 34, 120, 34, 58, 49, 125]⟩) [Result.true_] _ rfl rfl rfl

/-! ## `ValuesAtPath` and `KeysAtPath` -/

theorem take_succ_set {α : Type} (a : α) :
    ∀ (l : List α) (i : Nat), i < l.length → (l.set i a).take (i + 1) = l.take i ++ [a]
  | [], i, h => by simp at h
  | x :: l, 0, _ => by simp
  | x :: l, i + 1, h => by
    simp only [List.length_cons, Nat.add_lt_add_iff_right] at h
    simp [take_succ_set a l i h]

theorem KeysAtPath_loop_eq :
    ∀ (vs : List Value) (i : Nat) (keys : List Key), keys.length = i + vs.length →
      Document.KeysAtPath.loop i vs keys =
        keys.take i ++ vs.map fun v => Key.mk (toBytes v).1
  | [], i, keys, h => by
    simp only [List.length_nil, Nat.add_zero] at h
    simp [Document.KeysAtPath.loop, List.take_of_length_le (Nat.le_of_eq h)]
  | v :: vs, i, keys, h => by
    simp only [List.length_cons] at h
    have hi : i < keys.length := by omega
    have hlen : (keys.set i ⟨(toBytes v).1⟩).length = (i + 1) + vs.length := by
      simp only [List.length_set]; omega
    rw [Document.KeysAtPath.loop, KeysAtPath_loop_eq vs (i + 1) _ hlen]
    rw [take_succ_set _ keys i hi]
    simp

theorem KeysAtPath_of_values (g : Gjson) (d : Document) (p : GoString) (vs : List Value)
    (h : d.ValuesAtPath g p = (some vs, none)) :
    d.KeysAtPath g p = (some (vs.map fun v => Key.mk (toBytes v).1), none) := by
  have hl := KeysAtPath_loop_eq vs 0 (List.replicate vs.length (Key.mk none)) (by simp)
  simp only [Document.KeysAtPath, h, Slice.len, Option.getD_some, hl]
  simp

theorem KeysAtPath_of_error (g : Gjson) (d : Document) (p : GoString) (vs : Slice Value)
    (e : GoError) (h : d.ValuesAtPath g p = (vs, some e)) :
    d.KeysAtPath g p = (none, some e) := by
  simp only [Document.KeysAtPath, h]

theorem ValuesAtPath_shape (g : Gjson) (d : Document) (p : GoString) :
    (∃ vs, d.ValuesAtPath g p = (some vs, none)) ∨
    (∃ e, d.ValuesAtPath g p = (none, some e)) := by
  unfold Document.ValuesAtPath
  cases hv : g.ValidBytes d.raw with
  | false => exact Or.inr ⟨GoError.ErrInvalidJSON, by simp⟩
  | true =>
    rcases valuesFromResult_shape (g.GetBytes d.raw p) with ⟨_, hr⟩ | ⟨_, e, hr⟩
    · exact Or.inl ⟨_, by simpa using hr⟩
    · exact Or.inr ⟨e, by simpa using hr⟩

mutual
theorem valuesFromResult_error_form :
    ∀ (r : Result) (e : GoError), (valuesFromResult r).2 = some e →
      ∃ t, e = GoError.unsupportedType t
  | .null, e, h => by simp [valuesFromResult] at h
  | .number _, e, h => by simp [valuesFromResult] at h
  | .string _, e, h => by simp [valuesFromResult] at h
  | .false_, e, h => by
    simp only [valuesFromResult, Option.some.injEq] at h
    exact ⟨_, h.symm⟩
  | .true_, e, h => by
    simp only [valuesFromResult, Option.some.injEq] at h
    exact ⟨_, h.symm⟩
  | .object _, e, h => by
    simp only [valuesFromResult, Option.some.injEq] at h
    exact ⟨_, h.symm⟩
  | .array es, e, h => by
    simp only [valuesFromResult] at h
    exact loop_error_form [] es e h
theorem loop_error_form :
    ∀ (keys : List Value) (es : List Result) (e : GoError),
      (valuesFromResult.loop keys es).2 = some e → ∃ t, e = GoError.unsupportedType t
  | keys, [], e, h => by simp [valuesFromResult.loop] at h
  | keys, r :: rs, e, h => by
    rcases valuesFromResult_shape r with ⟨_, hr⟩ | ⟨_, e', hr⟩
    · simp only [valuesFromResult.loop, hr] at h
      exact loop_error_form _ rs e h
    · have he := valuesFromResult_error_form r e' (by rw [hr])
      simp only [valuesFromResult.loop, hr, Option.some.injEq] at h
      exact h ▸ he
end

theorem valuesFromResult_ne_invalid (r : Result) :
    (valuesFromResult r).2 ≠ some GoError.ErrInvalidJSON := by
  intro h
  obtain ⟨t, ht⟩ := valuesFromResult_error_form r _ h
  cases ht

theorem valuesFromResult_values (r : Result) (vs : List Value)
    (h : valuesFromResult r = (some vs, none)) :
    ∀ v ∈ vs, (∃ s, v = Value.str s) ∨ (∃ x, v = Value.float64 x) := by
  rcases valuesFromResult_shape r with ⟨_, hr⟩ | ⟨_, e, hr⟩
  · rw [hr] at h
    simp only [Prod.mk.injEq, Option.some.injEq, and_true] at h
    subst h
    exact leaves_text_or_number r
  · rw [hr] at h
    simp at h

theorem ValuesAtPath_values (g : Gjson) (d : Document) (p : GoString) (vs : List Value)
    (h : d.ValuesAtPath g p = (some vs, none)) :
    ∀ v ∈ vs, (∃ s, v = Value.str s) ∨ (∃ x, v = Value.float64 x) := by
  unfold Document.ValuesAtPath at h
  cases hv : g.ValidBytes d.raw with
  | false => simp [hv] at h
  | true =>
    simp only [hv, Bool.not_true, Bool.false_eq_true, if_false] at h
    exact valuesFromResult_values _ vs h

theorem toBytes_text_or_number (v : Value)
    (h : (∃ s, v = Value.str s) ∨ (∃ x, v = Value.float64 x)) :
    ∃ b, toBytes v = (some b, none) := by
  rcases h with ⟨s, rfl⟩ | ⟨x, rfl⟩
  · exact ⟨_, rfl⟩
  · exact ⟨_, rfl⟩

/-- C3: when `gjson.ValidBytes` rejects the buffer, `ValuesAtPath` and
`KeysAtPath` both return `ErrInvalidJSON` with a nil slice, whatever the path
and whatever the path evaluator would answer (it is not consulted); when the
buffer is valid neither of them returns `ErrInvalidJSON`. -/
theorem invalid_json_iff (g : Gjson) (d : Document) (p : GoString) :
    (g.ValidBytes d.raw = false →
      d.ValuesAtPath g p = (none, some GoError.ErrInvalidJSON) ∧
      d.KeysAtPath g p = (none, some GoError.ErrInvalidJSON) ∧
      ∀ get : Slice Nat → GoString → Result,
        d.ValuesAtPath ⟨g.ValidBytes, get⟩ p = (none, some GoError.ErrInvalidJSON) ∧
        d.KeysAtPath ⟨g.ValidBytes, get⟩ p = (none, some GoError.ErrInvalidJSON)) ∧
    (g.ValidBytes d.raw = true →
      (d.ValuesAtPath g p).2 ≠ some GoError.ErrInvalidJSON ∧
      (d.KeysAtPath g p).2 ≠ some GoError.ErrInvalidJSON) := by
  have hinv : ∀ g' : Gjson, g'.ValidBytes d.raw = false →
      d.ValuesAtPath g' p = (none, some GoError.ErrInvalidJSON) ∧
      d.KeysAtPath g' p = (none, some GoError.ErrInvalidJSON) := by
    intro g' hv
    have h1 : d.ValuesAtPath g' p = (none, some GoError.ErrInvalidJSON) := by
      simp [Document.ValuesAtPath, hv]
    exact ⟨h1, KeysAtPath_of_error g' d p _ _ h1⟩
  refine ⟨fun hv => ⟨(hinv g hv).1, (hinv g hv).2, fun get => hinv ⟨g.ValidBytes, get⟩ hv⟩, ?_⟩
  intro hv
  have h1 : d.ValuesAtPath g p = valuesFromResult (g.GetBytes d.raw p) := by
    simp [Document.ValuesAtPath, hv]
  have h2 : (d.ValuesAtPath g p).2 ≠ some GoError.ErrInvalidJSON := by
    rw [h1]; exact valuesFromResult_ne_invalid _
  refine ⟨h2, ?_⟩
  rcases ValuesAtPath_shape g d p with ⟨vs, hvs⟩ | ⟨e, he⟩
  · rw [KeysAtPath_of_values g d p vs hvs]; simp
  · rw [KeysAtPath_of_error g d p _ e he]
    rw [he] at h2
    exact h2

/-- Witness of C3: a rejected buffer `{"a":` gives `ErrInvalidJSON` from both
operations; an accepted buffer whose match is an object fails with another
error. -/
theorem invalid_json_iff_witness :
    ((DocumentFromString ⟨[123, 34, 97, 34, 58]⟩).ValuesAtPath
        (constGjson false (Result.string ⟨[97]⟩)) ⟨[97]⟩ =
      (none, some GoError.ErrInvalidJSON) ∧
    (DocumentFromString ⟨[123, 34, 97, 34, 58]⟩).KeysAtPath
        (constGjson false (Result.string ⟨[97]⟩)) ⟨[97]⟩ =
      (none, some GoError.ErrInvalidJSON)) ∧
    ((DocumentFromString ⟨[123, 125]⟩).ValuesAtPath
        (constGjson true (Result.object ⟨[123, 125]⟩)) ⟨[]⟩).2 ≠
      some GoError.ErrInvalidJSON :=
  ⟨⟨((invalid_json_iff (constGjson false (Result.string ⟨[97]⟩))
        (DocumentFromString ⟨[123, 34, 97, 34, 58]⟩) ⟨[97]⟩).1 rfl).1,
    ((invalid_json_iff (constGjson false (Result.string ⟨[97]⟩))
        (DocumentFromString ⟨[123, 34, 97, 34, 58]⟩) ⟨[97]⟩).1 rfl).2.1⟩,
   ((invalid_json_iff (constGjson true (Result.object ⟨[123, 125]⟩))
        (DocumentFromString ⟨[123, 125]⟩) ⟨[]⟩).2 rfl).1⟩

/-- C4: `KeysAtPath` returns the error of `ValuesAtPath` whenever there is one;
when `ValuesAtPath` succeeds with `vs`, `KeysAtPath` succeeds with as many keys
in the same order, the `i`-th key being the bytes that `toBytes` returns,
without error, on the `i`-th value; the two results have the same length. -/
theorem keysAtPath_encodes_values (g : Gjson) (d : Document) (p : GoString) :
    (d.KeysAtPath g p).2 = (d.ValuesAtPath g p).2 ∧
    ((d.ValuesAtPath g p).2 ≠ none → (d.KeysAtPath g p).1 = none) ∧
    (∀ vs, d.ValuesAtPath g p = (some vs, none) →
      ∃ keys, d.KeysAtPath g p = (some keys, none) ∧ keys.length = vs.length ∧
        keys = vs.map (fun v => Key.mk (toBytes v).1) ∧
        ∀ (i : Nat) (hi : i < vs.length) (hk : i < keys.length),
          toBytes (vs.get ⟨i, hi⟩) = ((keys.get ⟨i, hk⟩).raw, none) ∧
          (keys.get ⟨i, hk⟩).raw ≠ none) ∧
    Slice.len (d.KeysAtPath g p).1 = Slice.len (d.ValuesAtPath g p).1 := by
  rcases ValuesAtPath_shape g d p with ⟨vs, hvs⟩ | ⟨e, he⟩
  · have hk := KeysAtPath_of_values g d p vs hvs
    refine ⟨by rw [hk, hvs], by simp [hvs], ?_, by simp [hk, hvs, Slice.len]⟩
    intro vs' hvs'
    rw [hvs] at hvs'
    simp only [Prod.mk.injEq, Option.some.injEq, and_true] at hvs'
    subst hvs'
    refine ⟨_, hk, by simp, rfl, ?_⟩
    intro i hi hk'
    obtain ⟨b, hb⟩ := toBytes_text_or_number _
      (ValuesAtPath_values g d p vs hvs (vs.get ⟨i, hi⟩) (List.get_mem vs i hi))
    simp only [List.get_eq_getElem] at hb
    simp [hb]
  · have hk := KeysAtPath_of_error g d p _ e he
    refine ⟨by rw [hk, he], by simp [hk], ?_, by simp [hk, he, Slice.len]⟩
    intro vs hvs
    rw [he] at hvs
    simp at hvs

/-- Witness of C4: for the match `["Hello", 1]` the keys are the UTF-8 bytes
of `Hello` and the eight big-endian bytes of the bit pattern of `1`. -/
theorem keysAtPath_encodes_values_witness :
    (DocumentFromString ⟨[]⟩).KeysAtPath
        (constGjson true (Result.array [Result.string (GoString.ofText "Hello"),
          Result.number ⟨0x3FF0000000000000⟩])) ⟨[97]⟩ =
      (some [⟨some [72, 101, 108, 108, 111]⟩, ⟨some [63, 240, 0, 0, 0, 0, 0, 0]⟩], none) :=
  have w := (keysAtPath_encodes_values
    (constGjson true (Result.array [Result.string (GoString.ofText "Hello"),
      Result.number ⟨0x3FF0000000000000⟩])) (DocumentFromString ⟨[]⟩) ⟨[97]⟩).2.2.1
    [Value.str (GoString.ofText "Hello"), Value.float64 ⟨0x3FF0000000000000⟩] rfl
  w.choose_spec.1.trans (by rw [w.choose_spec.2.2.1]; decide)

/-- C5: every value of a successful `valuesFromResult` / `ValuesAtPath` is a
string or a float64, and `toBytes` returns bytes and no error on it; so every
key of a successful `KeysAtPath` is the non-nil slice that `toBytes` returned,
with a nil error, for a value of `ValuesAtPath`. -/
theorem values_always_encodable (g : Gjson) (d : Document) (p : GoString) :
    (∀ (r : Result) (vs : List Value), valuesFromResult r = (some vs, none) →
      ∀ v ∈ vs, ((∃ s, v = Value.str s) ∨ (∃ x, v = Value.float64 x)) ∧
        ∃ b, toBytes v = (some b, none)) ∧
    (∀ vs : List Value, d.ValuesAtPath g p = (some vs, none) →
      ∀ v ∈ vs, ((∃ s, v = Value.str s) ∨ (∃ x, v = Value.float64 x)) ∧
        (toBytes v).2 = none ∧ ∃ b, toBytes v = (some b, none)) ∧
    (∀ keys : List Key, d.KeysAtPath g p = (some keys, none) →
      ∃ vs, d.ValuesAtPath g p = (some vs, none) ∧
        ∀ k ∈ keys, k.raw ≠ none ∧ ∃ v ∈ vs, toBytes v = (k.raw, none)) := by
  refine ⟨?_, ?_, ?_⟩
  · intro r vs h v hv
    have := valuesFromResult_values r vs h v hv
    exact ⟨this, toBytes_text_or_number v this⟩
  · intro vs h v hv
    have := ValuesAtPath_values g d p vs h v hv
    obtain ⟨b, hb⟩ := toBytes_text_or_number v this
    exact ⟨this, by rw [hb], b, hb⟩
  · intro keys hk
    rcases ValuesAtPath_shape g d p with ⟨vs, hvs⟩ | ⟨e, he⟩
    · refine ⟨vs, hvs, ?_⟩
      rw [KeysAtPath_of_values g d p vs hvs] at hk
      simp only [Prod.mk.injEq, Option.some.injEq, and_true] at hk
      subst hk
      intro k hkm
      simp only [List.mem_map] at hkm
      obtain ⟨v, hv, rfl⟩ := hkm
      obtain ⟨b, hb⟩ := toBytes_text_or_number v (ValuesAtPath_values g d p vs hvs v hv)
      exact ⟨by simp [hb], v, hv, by simp [hb]⟩
    · rw [KeysAtPath_of_error g d p _ e he] at hk
      simp at hk

/-- Witness of C5: the two values matched by `["Hello", 1]` are a string and a
float64 and both are encoded without error. -/
theorem values_always_encodable_witness :
    ∀ v ∈ [Value.str (GoString.ofText "Hello"), Value.float64 ⟨0x3FF0000000000000⟩],
      ((∃ s, v = Value.str s) ∨ (∃ x, v = Value.float64 x)) ∧
        (toBytes v).2 = none ∧ ∃ b, toBytes v = (some b, none) :=
  (values_always_encodable
    (constGjson true (Result.array [Result.string (GoString.ofText "Hello"),
      Result.number ⟨0x3FF0000000000000⟩])) (DocumentFromString ⟨[]⟩) ⟨[97]⟩).2.1
    [Value.str (GoString.ofText "Hello"), Value.float64 ⟨0x3FF0000000000000⟩] rfl

/-! ## The canonical encoder -/

theorem utf8DecodeRunes_cons (b0 : Nat) (rest : Bytes) :
    utf8DecodeRunes (b0 :: rest) =
      if b0 < 0x80 then consRune (some b0) (utf8DecodeRunes rest)
      else if b0 < 0xE0 then
        match rest with
        | b1 :: rest1 => consRune (rune2 b0 b1) (utf8DecodeRunes rest1)
        | _ => none
      else if b0 < 0xF0 then
        match rest with
        | b1 :: b2 :: rest2 => consRune (rune3 b0 b1 b2) (utf8DecodeRunes rest2)
        | _ => none
      else
        match rest with
        | b1 :: b2 :: b3 :: rest3 => consRune (rune4 b0 b1 b2 b3) (utf8DecodeRunes rest3)
        | _ => none := by
  cases rest with
  | nil => rfl
  | cons b1 r1 =>
    cases r1 with
    | nil => rfl
    | cons b2 r2 =>
      cases r2 with
      | nil => rfl
      | cons b3 r3 => rfl

theorem utf8DecodeRunes_encodeRune (c : Char) (rest : Bytes) :
    utf8DecodeRunes (utf8EncodeRune c.toNat ++ rest) =
      consRune (some c.toNat) (utf8DecodeRunes rest) := by
  have hv : c.toNat < 0xd800 ∨ (0xdfff < c.toNat ∧ c.toNat < 0x110000) := c.valid
  generalize c.toNat = n at hv ⊢
  unfold utf8EncodeRune
  split_ifs with h1 h2 h3
  · simp only [List.singleton_append]
    rw [utf8DecodeRunes_cons, if_pos h1]
  · simp only [List.cons_append, List.nil_append]
    rw [utf8DecodeRunes_cons, if_neg (by omega), if_pos (by omega)]
    have : rune2 (0xC0 + n / 64) (0x80 + n % 64) = some n := by
      unfold rune2 isCont
      rw [if_pos (by omega)]
      exact congrArg some (by omega)
    dsimp only
    rw [this]
  · simp only [List.cons_append, List.nil_append]
    rw [utf8DecodeRunes_cons, if_neg (by omega), if_neg (by omega), if_pos (by omega)]
    have : rune3 (0xE0 + n / 4096) (0x80 + n / 64 % 64) (0x80 + n % 64) = some n := by
      unfold rune3 isCont
      simp only
      rw [if_pos (by omega)]
      exact congrArg some (by omega)
    dsimp only
    rw [this]
  · simp only [List.cons_append, List.nil_append]
    rw [utf8DecodeRunes_cons, if_neg (by omega), if_neg (by omega), if_neg (by omega)]
    have : rune4 (0xF0 + n / 262144) (0x80 + n / 4096 % 64) (0x80 + n / 64 % 64)
        (0x80 + n % 64) = some n := by
      unfold rune4 isCont
      simp only
      rw [if_pos (by omega)]
      exact congrArg some (by omega)
    dsimp only
    rw [this]

theorem utf8DecodeRunes_encode (cs : List Char) :
    utf8DecodeRunes (cs.flatMap fun c => utf8EncodeRune c.toNat) =
      some (cs.map Char.toNat) := by
  induction cs with
  | nil => rfl
  | cons c cs ih =>
    rw [List.flatMap_cons, utf8DecodeRunes_encodeRune, ih]
    rfl

theorem utf8Decode_encode (t : String) : utf8Decode (utf8Encode t) = some t := by
  unfold utf8Decode utf8Encode
  rw [utf8DecodeRunes_encode]
  simp only [Option.map_some', List.map_map, Option.some.injEq]
  have : (Char.ofNat ∘ Char.toNat) = id := by
    funext c
    simp [Char.ofNat_toNat]
  rw [this, List.map_id]

/-- The encoder of this file agrees with `String.toUTF8` on a text that has
characters of all four encoded lengths. -/
theorem utf8Encode_agrees_sample :
    utf8Encode "hé€😀" = "hé€😀".toUTF8.data.toList.map UInt8.toNat := by
  decide

/-- C6: on a text `toBytes` succeeds and returns exactly its UTF-8 bytes
(the bytes of the Go string, nothing before and nothing after them); strict
UTF-8 decoding of the returned bytes gives the text back, so two texts with
the same encoding are equal. -/
theorem toBytes_text_utf8 (t : String) :
    toBytes (Value.str (GoString.ofText t)) = (some (utf8Encode t), none) ∧
    (∀ b, (toBytes (Value.str (GoString.ofText t))).1 = some b → utf8Decode b = some t) ∧
    (∀ t' : String, toBytes (Value.str (GoString.ofText t')) =
      toBytes (Value.str (GoString.ofText t)) → t' = t) ∧
    (∀ s : GoString, toBytes (Value.str s) = (some s.bytes, none) ∧
      ∀ b, (toBytes (Value.str s)).1 = some b → b.length = s.bytes.length ∧ GoString.mk b = s) := by
  refine ⟨rfl, ?_, ?_, ?_⟩
  · intro b hb
    simp only [toBytes, GoString.ofText, Option.some.injEq] at hb
    rw [← hb]
    exact utf8Decode_encode t
  · intro t' h
    simp only [toBytes, GoString.ofText, Prod.mk.injEq, Option.some.injEq, and_true] at h
    have h1 := utf8Decode_encode t'
    rw [h, utf8Decode_encode t] at h1
    exact (Option.some.inj h1).symm
  · intro s
    refine ⟨rfl, ?_⟩
    intro b hb
    simp only [toBytes, Option.some.injEq] at hb
    subst hb
    exact ⟨rfl, rfl⟩

/-- Witness of C6: the text `hé€😀` is encoded as its ten UTF-8 bytes, which
decode back to it. -/
theorem toBytes_text_utf8_witness :
    toBytes (Value.str (GoString.ofText "hé€😀")) =
      (some [104, 195, 169, 226, 130, 172, 240, 159, 152, 128], none) ∧
    utf8Decode [104, 195, 169, 226, 130, 172, 240, 159, 152, 128] = some "hé€😀" :=
  ⟨(toBytes_text_utf8 "hé€😀").1.trans (by decide),
   (toBytes_text_utf8 "hé€😀").2.1 [104, 195, 169, 226, 130, 172, 240, 159, 152, 128]
     (by decide)⟩

theorem bigEndianValue_PutUint64 (v : Nat) (h : v < 2 ^ 64) :
    bigEndianValue (PutUint64 v) = v := by
  simp only [bigEndianValue, PutUint64, List.foldl_cons, List.foldl_nil,
    Nat.shiftRight_eq_div_pow]
  norm_num at h ⊢
  omega

theorem Float64bits_lt (x : Float64) : Float64bits x < 2 ^ 64 :=
  Nat.mod_lt _ (by norm_num)

/-- C7: on a float64 with bit pattern `b`, `toBytes` succeeds with exactly 8
bytes, byte `i` holding bits `63 - 8 i` down to `56 - 8 i` of `b`; their
big-endian value is `b`; two numbers get the same key exactly when their bit
patterns are equal. -/
theorem toBytes_float64_big_endian (x : Float64) :
    (∃ key, toBytes (Value.float64 x) = (some key, none) ∧ key.length = 8 ∧
      (∀ i, i < 8 → key[i]? = some (Float64bits x / 2 ^ (56 - 8 * i) % 256)) ∧
      (∀ b ∈ key, b < 256) ∧
      bigEndianValue key = Float64bits x) ∧
    (∀ y : Float64, toBytes (Value.float64 y) = toBytes (Value.float64 x) ↔
      Float64bits y = Float64bits x) := by
  refine ⟨⟨PutUint64 (Float64bits x), rfl, rfl, ?_, ?_,
    bigEndianValue_PutUint64 _ (Float64bits_lt x)⟩, ?_⟩
  · intro i hi
    simp only [PutUint64, Nat.shiftRight_eq_div_pow]
    interval_cases i <;> simp
  · intro b hb
    simp only [PutUint64, List.mem_cons, List.mem_singleton, List.not_mem_nil, or_false] at hb
    rcases hb with h | h | h | h | h | h | h | h <;> rw [h] <;> exact Nat.mod_lt _ (by norm_num)
  · intro y
    constructor
    · intro h
      simp only [toBytes, Prod.mk.injEq, Option.some.injEq, and_true] at h
      rw [← bigEndianValue_PutUint64 _ (Float64bits_lt y),
        ← bigEndianValue_PutUint64 _ (Float64bits_lt x), h]
    · intro h
      simp only [toBytes, h]

/-- Witness of C7: `1.0` (bit pattern `0x3FF0000000000000`) is encoded as
`3F F0 00 00 00 00 00 00`, and `+0.0` and `-0.0`, whose bit patterns differ,
get different keys. -/
theorem toBytes_float64_big_endian_witness :
    (∃ key, toBytes (Value.float64 ⟨0x3FF0000000000000⟩) = (some key, none) ∧
      key.length = 8 ∧
      (∀ i, i < 8 → key[i]? = some (Float64bits ⟨0x3FF0000000000000⟩ / 2 ^ (56 - 8 * i) % 256)) ∧
      (∀ b ∈ key, b < 256) ∧
      bigEndianValue key = Float64bits ⟨0x3FF0000000000000⟩) ∧
    toBytes (Value.float64 ⟨0x3FF0000000000000⟩) = (some [63, 240, 0, 0, 0, 0, 0, 0], none) ∧
    toBytes (Value.float64 ⟨0⟩) ≠ toBytes (Value.float64 ⟨0x8000000000000000⟩) :=
  ⟨(toBytes_float64_big_endian ⟨0x3FF0000000000000⟩).1, by decide,
   fun h => absurd (((toBytes_float64_big_endian ⟨0x8000000000000000⟩).2 ⟨0⟩).mp h)
     (by decide)⟩

/-- C8: `toBytes` returns an error exactly when the dynamic type of its
argument is none of `[]uint8`, `string` and `float64`; the error comes with the
nil slice, and for the three accepted types the error is nil. -/
theorem toBytes_fails_iff (v : Value) :
    ((toBytes v).2 ≠ none ↔
      (v.dynType ≠ GoType.sliceUint8 ∧ v.dynType ≠ GoType.string ∧
        v.dynType ≠ GoType.float64)) ∧
    ((toBytes v).2 ≠ none → toBytes v = (none, some GoError.conversion)) ∧
    ((v.dynType = GoType.sliceUint8 ∨ v.dynType = GoType.string ∨
        v.dynType = GoType.float64) → (toBytes v).2 = none) := by
  cases v <;> simp [toBytes, Value.dynType]

/-- Witness of C8: an `int`, a `bool` and the nil interface are rejected with
the nil slice; a string is accepted. -/
theorem toBytes_fails_iff_witness :
    toBytes (Value.other "int" "42") = (none, some GoError.conversion) ∧
    toBytes (Value.other "bool" "true") = (none, some GoError.conversion) ∧
    toBytes Value.nil = (none, some GoError.conversion) ∧
    (toBytes (Value.str ⟨[97]⟩)).2 = none :=
  ⟨(toBytes_fails_iff (Value.other "int" "42")).2.1 (by decide),
   (toBytes_fails_iff (Value.other "bool" "true")).2.1 (by decide),
   (toBytes_fails_iff Value.nil).2.1 (by decide),
   (toBytes_fails_iff (Value.str ⟨[97]⟩)).2.2 (Or.inr (Or.inl rfl))⟩

/-- C9 (the code departs from the claim): a value whose dynamic type is `Key`
matches no case of the type switch of `toBytes`, so re-encoding a key, such as
the element of the `KeysAtPath` result for the match `"Hello"`, fails with the
conversion error and the nil slice instead of passing the bytes through. -/
theorem toBytes_key_rejected :
    (DocumentFromString ⟨[]⟩).KeysAtPath
        (constGjson true (Result.string (GoString.ofText "Hello"))) ⟨[97]⟩ =
      (some [⟨some [72, 101, 108, 108, 111]⟩], none) ∧
    toBytes (Value.key ⟨some [72, 101, 108, 108, 111]⟩) = (none, some GoError.conversion) ∧
    toBytes (Value.bytes (some [72, 101, 108, 108, 111])) =
      (some [72, 101, 108, 108, 111], none) ∧
    ∀ k : Key, toBytes (Value.key k) = (none, some GoError.conversion) :=
  ⟨by decide, rfl, rfl, fun _ => rfl⟩

/-- C10: on a raw byte slice `toBytes` succeeds and returns the slice itself
(same length, same bytes); so for every value that `toBytes` accepts, encoding
the returned bytes again succeeds and returns the same bytes. -/
theorem toBytes_bytes_passthrough (b : Slice Nat) :
    toBytes (Value.bytes b) = (b, none) ∧
    Slice.len (toBytes (Value.bytes b)).1 = Slice.len b ∧
    (∀ v : Value, (toBytes v).2 = none →
      toBytes (Value.bytes (toBytes v).1) = toBytes v) := by
  refine ⟨rfl, rfl, ?_⟩
  intro v hv
  cases v <;> simp_all [toBytes]

/-- Witness of C10: encoding the key of the number `1.0` again returns the same
eight bytes. -/
theorem toBytes_bytes_passthrough_witness :
    toBytes (Value.bytes (toBytes (Value.float64 ⟨0x3FF0000000000000⟩)).1) =
      (some [63, 240, 0, 0, 0, 0, 0, 0], none) :=
  ((toBytes_bytes_passthrough none).2.2 (Value.float64 ⟨0x3FF0000000000000⟩) rfl).trans
    (by decide)

/-! ## The delimiter byte -/

/-- Counterexample to C11: the key of the number `4.0` (bit pattern
`0x4010000000000000`) is `40 10 00 00 00 00 00 00`; it contains the
`KeyDelimiter` byte although the input is neither a text nor a byte sequence,
and `KeysAtPath` returns that key for a match that is this number. -/
theorem toBytes_number_contains_delimiter :
    toBytes (Value.float64 ⟨0x4010000000000000⟩) =
      (some [0x40, KeyDelimiter, 0, 0, 0, 0, 0, 0], none) ∧
    (∃ key, (toBytes (Value.float64 ⟨0x4010000000000000⟩)).1 = some key ∧
      KeyDelimiter ∈ key) ∧
    (DocumentFromString ⟨[]⟩).KeysAtPath
        (constGjson true (Result.number ⟨0x4010000000000000⟩)) ⟨[97]⟩ =
      (some [⟨some [0x40, KeyDelimiter, 0, 0, 0, 0, 0, 0]⟩], none) :=
  ⟨by decide, ⟨_, rfl, by decide⟩, by decide⟩

/-- C11 (amended): `toBytes` adds and removes no byte of its own. For a text
or a byte sequence the key is the input, so a `KeyDelimiter` byte at position
`i` of the key is the byte at position `i` of the input; for a number the key
has a `KeyDelimiter` byte at position `i` exactly when `i < 8` and bits
`63 - 8 i` down to `56 - 8 i` of the bit pattern are `0x10`. -/
theorem toBytes_delimiter_positions (v : Value) (key : Bytes)
    (h : toBytes v = (some key, none)) (i : Nat) :
    (∀ s, v = Value.str s → key = s.bytes ∧
      (key[i]? = some KeyDelimiter ↔ s.bytes[i]? = some KeyDelimiter)) ∧
    (∀ b, v = Value.bytes b → b = some key ∧
      (key[i]? = some KeyDelimiter ↔ (b.getD [])[i]? = some KeyDelimiter)) ∧
    (∀ x, v = Value.float64 x → key.length = 8 ∧
      (key[i]? = some KeyDelimiter ↔
        i < 8 ∧ Float64bits x / 2 ^ (56 - 8 * i) % 256 = KeyDelimiter)) ∧
    ((∃ s, v = Value.str s) ∨ (∃ b, v = Value.bytes b) ∨ (∃ x, v = Value.float64 x)) := by
  refine ⟨?_, ?_, ?_, ?_⟩
  · intro s hs
    subst hs
    simp only [toBytes, Prod.mk.injEq, Option.some.injEq, and_true] at h
    subst h
    exact ⟨rfl, Iff.rfl⟩
  · intro b hb
    subst hb
    simp only [toBytes, Prod.mk.injEq, and_true] at h
    subst h
    exact ⟨rfl, Iff.rfl⟩
  · intro x hx
    subst hx
    simp only [toBytes, Prod.mk.injEq, Option.some.injEq, and_true] at h
    subst h
    refine ⟨rfl, ?_⟩
    by_cases hi : i < 8
    · simp only [PutUint64, Nat.shiftRight_eq_div_pow, hi, true_and]
      interval_cases i <;> simp
    · have hlen : (PutUint64 (Float64bits x)).length ≤ i := by
        simp only [PutUint64, List.length_cons, List.length_nil]; omega
      simp [List.getElem?_eq_none hlen, hi]
  · cases v <;> simp_all [toBytes]

/-- Witness of C11 (amended): in the key of the text `a\x10b` the delimiter
byte at position 1 is the input byte at position 1. -/
theorem toBytes_delimiter_positions_witness :
    ([97, 16, 98] : Bytes) = (GoString.mk [97, 16, 98]).bytes ∧
    (([97, 16, 98] : Bytes)[1]? = some KeyDelimiter ↔
      (GoString.mk [97, 16, 98]).bytes[1]? = some KeyDelimiter) :=
  (toBytes_delimiter_positions (Value.str ⟨[97, 16, 98]⟩) [97, 16, 98] rfl 1).1
    ⟨[97, 16, 98]⟩ rfl

/-! ## Error texts -/

mutual
theorem firstUnsupported_of_supported :
    ∀ r : Result, r.hasUnsupported = false → r.firstUnsupported = none
  | .null, _ => rfl
  | .number _, _ => rfl
  | .string _, _ => rfl
  | .false_, h => by simp [Result.hasUnsupported] at h
  | .true_, h => by simp [Result.hasUnsupported] at h
  | .object _, h => by simp [Result.hasUnsupported] at h
  | .array es, h => by
    simp only [Result.hasUnsupported] at h
    simp only [Result.firstUnsupported]
    exact firstUnsupportedList_of_supported es h
theorem firstUnsupportedList_of_supported :
    ∀ es : List Result, Result.hasUnsupportedList es = false →
      Result.firstUnsupportedList es = none
  | [], _ => rfl
  | r :: rs, h => by
    simp only [Result.hasUnsupportedList, Bool.or_eq_false_iff] at h
    simp only [Result.firstUnsupportedList, firstUnsupported_of_supported r h.1,
      firstUnsupportedList_of_supported rs h.2]
end

mutual
theorem valuesFromResult_error_of_first :
    ∀ r : Result, r.hasUnsupported = true →
      ∃ n, r.firstUnsupported = some n ∧
        (n = Result.false_ ∨ n = Result.true_ ∨ ∃ raw, n = Result.object raw) ∧
        valuesFromResult r = (none, some (GoError.unsupportedType n.String))
  | .null, h => by simp [Result.hasUnsupported] at h
  | .number _, h => by simp [Result.hasUnsupported] at h
  | .string _, h => by simp [Result.hasUnsupported] at h
  | .false_, _ => ⟨_, rfl, Or.inl rfl, rfl⟩
  | .true_, _ => ⟨_, rfl, Or.inr (Or.inl rfl), rfl⟩
  | .object raw, _ => ⟨_, rfl, Or.inr (Or.inr ⟨raw, rfl⟩), rfl⟩
  | .array es, h => by
    simp only [Result.hasUnsupported] at h
    simp only [valuesFromResult, Result.firstUnsupported]
    exact loop_error_of_first [] es h
theorem loop_error_of_first :
    ∀ (keys : List Value) (es : List Result), Result.hasUnsupportedList es = true →
      ∃ n, Result.firstUnsupportedList es = some n ∧
        (n = Result.false_ ∨ n = Result.true_ ∨ ∃ raw, n = Result.object raw) ∧
        valuesFromResult.loop keys es = (none, some (GoError.unsupportedType n.String))
  | keys, [], h => by simp [Result.hasUnsupportedList] at h
  | keys, r :: rs, h => by
    cases hr : r.hasUnsupported with
    | true =>
      obtain ⟨n, h1, h2, h3⟩ := valuesFromResult_error_of_first r hr
      exact ⟨n, by simp only [Result.firstUnsupportedList, h1], h2,
        by simp only [valuesFromResult.loop, h3]⟩
    | false =>
      simp only [Result.hasUnsupportedList, hr, Bool.false_or] at h
      obtain ⟨n, h1, h2, h3⟩ := loop_error_of_first (keys ++ r.leaves) rs h
      exact ⟨n, by
          simp only [Result.firstUnsupportedList, firstUnsupported_of_supported r hr, h1],
        h2, by
          simp only [valuesFromResult.loop, valuesFromResult_of_supported r hr,
            Option.getD_some, h3]⟩
end

/-- C16: when `valuesFromResult` fails, the error is the one built from the
first object or boolean node met depth first, left to right: its text is
`type at path not supported for indexing: ` followed by the `String()` of that
node itself (`false`, `true`, or the raw text of the object), whatever array
encloses it. -/
theorem error_text_names_offending_node (r : Result) (e : GoError)
    (h : (valuesFromResult r).2 = some e) :
    ∃ n, r.firstUnsupported = some n ∧
      (n = Result.false_ ∨ n = Result.true_ ∨ ∃ raw, n = Result.object raw) ∧
      e = GoError.unsupportedType n.String ∧
      e.message.bytes =
        asciiBytes "type at path not supported for indexing: " ++ n.String.bytes ∧
      n.String.bytes <:+ e.message.bytes := by
  rcases valuesFromResult_shape r with ⟨_, hr⟩ | ⟨hu, _, _⟩
  · rw [hr] at h
    simp at h
  · obtain ⟨n, h1, h2, h3⟩ := valuesFromResult_error_of_first r hu
    rw [h3] at h
    simp only [Option.some.injEq] at h
    subst h
    exact ⟨n, h1, h2, rfl, rfl, List.suffix_append _ _⟩

/-- Witness of C16: for the match `{"x":1}` (path `obj` of `{"obj":{"x":1}}`)
and for the array `[1, [{"x":1}], true]` the error text ends with `{"x":1}`. -/
theorem error_text_names_offending_node_witness :
    (∃ n, (Result.object ⟨asciiBytes "\x7b\"x\":1\x7d"⟩).firstUnsupported = some n ∧
      (n = Result.false_ ∨ n = Result.true_ ∨ ∃ raw, n = Result.object raw) ∧
      GoError.unsupportedType ⟨asciiBytes "\x7b\"x\":1\x7d"⟩ = GoError.unsupportedType n.String ∧
      (GoError.unsupportedType ⟨asciiBytes "\x7b\"x\":1\x7d"⟩).message.bytes =
        asciiBytes "type at path not supported for indexing: " ++ n.String.bytes ∧
      n.String.bytes <:+ (GoError.unsupportedType ⟨asciiBytes "\x7b\"x\":1\x7d"⟩).message.bytes) ∧
    (valuesFromResult (Result.array [Result.number ⟨0x3FF0000000000000⟩,
        Result.array [Result.object ⟨asciiBytes "\x7b\"x\":1\x7d"⟩], Result.true_])).2 =
      some (GoError.unsupportedType ⟨asciiBytes "\x7b\"x\":1\x7d"⟩) ∧
    (GoError.unsupportedType ⟨asciiBytes "\x7b\"x\":1\x7d"⟩).message =
      ⟨asciiBytes "type at path not supported for indexing: \x7b\"x\":1\x7d"⟩ :=
  ⟨error_text_names_offending_node (Result.object ⟨asciiBytes "\x7b\"x\":1\x7d"⟩)
      (GoError.unsupportedType ⟨asciiBytes "\x7b\"x\":1\x7d"⟩) rfl,
   by decide, by decide⟩

/-- Counterexample to C17: an `int` and a `bool`, of different dynamic types,
are rejected with the same error, whose text `couldn't convert data to []byte`
is a constant of the code. -/
theorem conversion_error_same_for_all_types :
    (Value.other "int" "42").dynType ≠ (Value.other "bool" "true").dynType ∧
    (toBytes (Value.other "int" "42")).2 = some GoError.conversion ∧
    (toBytes (Value.other "bool" "true")).2 = some GoError.conversion ∧
    (toBytes (Value.other "int" "42")).2 = (toBytes (Value.other "bool" "true")).2 ∧
    GoError.conversion.message = ⟨asciiBytes "couldn't convert data to []byte"⟩ :=
  ⟨by decide, rfl, rfl, rfl, rfl⟩

/-- C17 (amended): when `toBytes` fails, whatever the type of the rejected
value, it returns the nil slice and the one error whose text is
`couldn't convert data to []byte`; two rejected values get the same error. -/
theorem conversion_error_is_constant (v : Value) (h : (toBytes v).2 ≠ none) :
    toBytes v = (none, some GoError.conversion) ∧
    (∀ e, (toBytes v).2 = some e →
      e.message = ⟨asciiBytes "couldn't convert data to []byte"⟩) ∧
    (∀ w : Value, (toBytes w).2 ≠ none → (toBytes w).2 = (toBytes v).2) := by
  have key : ∀ u : Value, (toBytes u).2 ≠ none → toBytes u = (none, some GoError.conversion) := by
    intro u hu
    cases u <;> simp_all [toBytes]
  refine ⟨key v h, ?_, ?_⟩
  · intro e he
    rw [key v h] at he
    simp only [Option.some.injEq] at he
    subst he
    rfl
  · intro w hw
    rw [key v h, key w hw]

/-- Witness of C17 (amended): an `int` is rejected with the constant error. -/
theorem conversion_error_is_constant_witness :
    toBytes (Value.other "int" "42") = (none, some GoError.conversion) :=
  (conversion_error_is_constant (Value.other "int" "42") (by decide)).1

/-! ## Reference -/

theorem hexEncode_byte (v : Nat) (h : v < 256) :
    hextable.getD (v >>> 4) 0 = lowerHexDigit (v / 16) ∧
    hextable.getD (v &&& 0x0f) 0 = lowerHexDigit (v % 16) := by
  interval_cases v <;> decide

theorem hexEncode_cons (v : Nat) (bs : Bytes) (h : v < 256) :
    hexEncode (v :: bs) = lowerHexDigit (v / 16) :: lowerHexDigit (v % 16) :: hexEncode bs := by
  simp only [hexEncode, List.flatMap_cons, (hexEncode_byte v h).1, (hexEncode_byte v h).2,
    List.cons_append, List.nil_append]

theorem fromHexChar_lowerHexDigit (n : Nat) (h : n < 16) :
    fromHexChar (lowerHexDigit n) = some n ∧ isLowerHexDigit (lowerHexDigit n) := by
  interval_cases n <;> decide

theorem hexEncode_length (bs : Bytes) (h : wellFormedBytes bs) :
    (hexEncode bs).length = 2 * bs.length := by
  induction bs with
  | nil => rfl
  | cons v bs ih =>
    rw [hexEncode_cons v bs (h v (List.mem_cons_self _ _)), List.length_cons, List.length_cons,
      ih (fun b hb => h b (List.mem_cons_of_mem _ hb)), List.length_cons]
    omega

theorem hexEncode_digits (bs : Bytes) (h : wellFormedBytes bs) :
    ∀ c ∈ hexEncode bs, isLowerHexDigit c := by
  induction bs with
  | nil => intro c hc; simp [hexEncode] at hc
  | cons v bs ih =>
    have hv := h v (List.mem_cons_self _ _)
    intro c hc
    rw [hexEncode_cons v bs hv] at hc
    simp only [List.mem_cons] at hc
    rcases hc with rfl | rfl | hc
    · exact (fromHexChar_lowerHexDigit _ (by omega)).2
    · exact (fromHexChar_lowerHexDigit _ (by omega)).2
    · exact ih (fun b hb => h b (List.mem_cons_of_mem _ hb)) c hc

theorem hexEncode_getElem (bs : Bytes) (h : wellFormedBytes bs) :
    ∀ (i : Nat) (hi : i < bs.length),
      (hexEncode bs)[2 * i]? = some (lowerHexDigit (bs[i] / 16)) ∧
      (hexEncode bs)[2 * i + 1]? = some (lowerHexDigit (bs[i] % 16)) := by
  induction bs with
  | nil => intro i hi; simp at hi
  | cons v bs ih =>
    have hv := h v (List.mem_cons_self _ _)
    intro i hi
    rw [hexEncode_cons v bs hv]
    cases i with
    | zero => simp
    | succ i =>
      have hi2 : i < bs.length := by simpa using hi
      have := ih (fun b hb => h b (List.mem_cons_of_mem _ hb)) i hi2
      have e1 : 2 * (i + 1) = (2 * i) + 1 + 1 := by omega
      rw [e1]
      simpa using this

theorem hexDecode_hexEncode (bs : Bytes) (h : wellFormedBytes bs) :
    hexDecode (hexEncode bs) = some bs := by
  induction bs with
  | nil => rfl
  | cons v bs ih =>
    have hv := h v (List.mem_cons_self _ _)
    rw [hexEncode_cons v bs hv, hexDecode,
      (fromHexChar_lowerHexDigit (v / 16) (by omega)).1,
      (fromHexChar_lowerHexDigit (v % 16) (by omega)).1,
      ih (fun b hb => h b (List.mem_cons_of_mem _ hb))]
    simp only [Option.some.injEq, List.cons.injEq, and_true]
    omega

/-- C18: `ByteSize` is the number of bytes of the reference; `EncodeToString`
has exactly `2 * ByteSize` characters, all in `0-9a-f`, characters `2 i` and
`2 i + 1` being the high and the low hexadecimal digit of byte `i`; hex
decoding gives the bytes back, so two references with the same rendering
have the same bytes. -/
theorem reference_hex_rendering (r : Reference) (h : wellFormedBytes (r.raw.getD [])) :
    r.ByteSize = (r.raw.getD []).length ∧
    r.EncodeToString.bytes.length = 2 * r.ByteSize ∧
    (∀ c ∈ r.EncodeToString.bytes, isLowerHexDigit c) ∧
    (∀ (i : Nat) (hi : i < (r.raw.getD []).length),
      r.EncodeToString.bytes[2 * i]? = some (lowerHexDigit ((r.raw.getD [])[i] / 16)) ∧
      r.EncodeToString.bytes[2 * i + 1]? = some (lowerHexDigit ((r.raw.getD [])[i] % 16))) ∧
    hexDecode r.EncodeToString.bytes = some (r.raw.getD []) ∧
    (∀ r2 : Reference, wellFormedBytes (r2.raw.getD []) →
      r2.EncodeToString = r.EncodeToString → r2.raw.getD [] = r.raw.getD []) := by
  have hsize : r.ByteSize = (r.raw.getD []).length := by
    cases hr : r.raw <;> simp [Reference.ByteSize, Slice.len, hr]
  refine ⟨hsize, ?_, hexEncode_digits _ h, hexEncode_getElem _ h, hexDecode_hexEncode _ h, ?_⟩
  · rw [hsize]
    exact hexEncode_length _ h
  · intro r2 h2 heq
    have e1 := hexDecode_hexEncode _ h2
    have e2 := hexDecode_hexEncode _ h
    simp only [Reference.EncodeToString, GoString.mk.injEq] at heq
    rw [heq, e2] at e1
    exact (Option.some.inj e1).symm

/-- Witness of C18: the reference `00 ab ff 10` has size 4 and is rendered
as `00abff10`. -/
theorem reference_hex_rendering_witness :
    (Reference.mk (some [0x00, 0xab, 0xff, 0x10])).ByteSize = 4 ∧
    (Reference.mk (some [0x00, 0xab, 0xff, 0x10])).EncodeToString =
      ⟨asciiBytes "00abff10"⟩ ∧
    hexDecode (asciiBytes "00abff10") = some [0x00, 0xab, 0xff, 0x10] :=
  have w := reference_hex_rendering (Reference.mk (some [0x00, 0xab, 0xff, 0x10]))
    (by decide)
  ⟨w.1, by decide, w.2.2.2.2.1⟩

/-! ## Ordering of number keys -/

theorem bigEndian_foldl (xs : Bytes) :
    ∀ acc : Nat, xs.foldl (fun acc b => acc * 256 + b) acc =
      acc * 256 ^ xs.length + bigEndianValue xs := by
  induction xs with
  | nil => intro acc; simp [bigEndianValue]
  | cons x xs ih =>
    intro acc
    simp only [bigEndianValue, List.foldl_cons, List.length_cons]
    rw [ih (acc * 256 + x), ih (0 * 256 + x)]
    ring

theorem bigEndianValue_cons (x : Nat) (xs : Bytes) :
    bigEndianValue (x :: xs) = x * 256 ^ xs.length + bigEndianValue xs := by
  have := bigEndian_foldl xs (0 * 256 + x)
  simp only [Nat.zero_mul, Nat.zero_add] at this
  simpa [bigEndianValue] using this

theorem bigEndianValue_lt (xs : Bytes) (h : wellFormedBytes xs) :
    bigEndianValue xs < 256 ^ xs.length := by
  induction xs with
  | nil => simp [bigEndianValue]
  | cons x xs ih =>
    have hx : x < 256 := h x (List.mem_cons_self _ _)
    have ih2 := ih (fun b hb => h b (List.mem_cons_of_mem _ hb))
    rw [bigEndianValue_cons, List.length_cons, pow_succ]
    nlinarith

theorem bytesCompare_eq_compare :
    ∀ xs ys : Bytes, xs.length = ys.length → wellFormedBytes xs → wellFormedBytes ys →
      bytesCompare xs ys = compare (bigEndianValue xs) (bigEndianValue ys)
  | [], [], _, _, _ => rfl
  | [], _ :: _, h, _, _ => by simp at h
  | _ :: _, [], h, _, _ => by simp at h
  | a :: as, b :: bs, h, ha, hb => by
    have hlen : as.length = bs.length := by simpa using h
    have hva := bigEndianValue_lt as (fun c hc => ha c (List.mem_cons_of_mem _ hc))
    have hvb := bigEndianValue_lt bs (fun c hc => hb c (List.mem_cons_of_mem _ hc))
    have ih := bytesCompare_eq_compare as bs hlen
      (fun c hc => ha c (List.mem_cons_of_mem _ hc))
      (fun c hc => hb c (List.mem_cons_of_mem _ hc))
    rw [bigEndianValue_cons, bigEndianValue_cons, bytesCompare, ← hlen]
    rw [← hlen] at hvb
    generalize 256 ^ as.length = P at hva hvb ⊢
    by_cases h1 : a < b
    · rw [if_pos h1]
      symm
      rw [compare_lt_iff_lt]
      nlinarith
    · rw [if_neg h1]
      by_cases h2 : b < a
      · rw [if_pos h2]
        symm
        rw [compare_gt_iff_gt]
        nlinarith
      · rw [if_neg h2, ih]
        have hab : a = b := by omega
        subst hab
        rcases Nat.lt_trichotomy (bigEndianValue as) (bigEndianValue bs) with h3 | h3 | h3
        · rw [compare_lt_iff_lt.mpr h3, compare_lt_iff_lt.mpr (by omega)]
        · rw [h3, compare_eq_iff_eq.mpr rfl, compare_eq_iff_eq.mpr rfl]
        · rw [compare_gt_iff_gt.mpr h3, compare_gt_iff_gt.mpr (by omega)]

theorem PutUint64_wellFormed (v : Nat) : wellFormedBytes (PutUint64 v) := by
  intro b hb
  simp only [PutUint64, List.mem_cons, List.mem_singleton, List.not_mem_nil, or_false] at hb
  rcases hb with h | h | h | h | h | h | h | h <;> rw [h] <;> exact Nat.mod_lt _ (by norm_num)

theorem bytesCompare_PutUint64 (a b : Nat) (ha : a < 2 ^ 64) (hb : b < 2 ^ 64) :
    bytesCompare (PutUint64 a) (PutUint64 b) = compare a b := by
  have hl : (PutUint64 a).length = (PutUint64 b).length := by
    simp only [PutUint64, List.length_cons, List.length_nil]
  rw [bytesCompare_eq_compare (PutUint64 a) (PutUint64 b) hl (PutUint64_wellFormed a)
      (PutUint64_wellFormed b),
    bigEndianValue_PutUint64 a ha, bigEndianValue_PutUint64 b hb]

theorem scaledValue_lt (a b : Nat) (h : a < b) : scaledValue a < scaledValue b := by
  unfold scaledValue
  have hma : a % 2 ^ 52 < 2 ^ 52 := Nat.mod_lt _ (by norm_num)
  have hmb : b % 2 ^ 52 < 2 ^ 52 := Nat.mod_lt _ (by norm_num)
  have hle : a / 2 ^ 52 ≤ b / 2 ^ 52 := Nat.div_le_div_right (Nat.le_of_lt h)
  have hda := Nat.div_add_mod a (2 ^ 52)
  have hdb := Nat.div_add_mod b (2 ^ 52)
  by_cases ha0 : a / 2 ^ 52 = 0
  · rw [if_pos ha0]
    by_cases hb0 : b / 2 ^ 52 = 0
    · rw [if_pos hb0]
      rw [ha0] at hda
      rw [hb0] at hdb
      omega
    · rw [if_neg hb0]
      have hq : 1 ≤ 2 ^ (b / 2 ^ 52 - 1) := Nat.one_le_two_pow
      calc a % 2 ^ 52 < 2 ^ 52 := hma
        _ ≤ (2 ^ 52 + b % 2 ^ 52) * 1 := by omega
        _ ≤ (2 ^ 52 + b % 2 ^ 52) * 2 ^ (b / 2 ^ 52 - 1) := Nat.mul_le_mul_left _ hq
  · have hb0 : b / 2 ^ 52 ≠ 0 := by omega
    rw [if_neg ha0, if_neg hb0]
    rcases Nat.lt_or_eq_of_le hle with hlt | heq
    · have hp : 2 * 2 ^ (a / 2 ^ 52 - 1) ≤ 2 ^ (b / 2 ^ 52 - 1) := by
        have : 2 * 2 ^ (a / 2 ^ 52 - 1) = 2 ^ (a / 2 ^ 52 - 1 + 1) := by
          rw [pow_succ]; ring
        rw [this]
        exact Nat.pow_le_pow_right (by norm_num) (by omega)
      have hP : 1 ≤ 2 ^ (a / 2 ^ 52 - 1) := Nat.one_le_two_pow
      calc (2 ^ 52 + a % 2 ^ 52) * 2 ^ (a / 2 ^ 52 - 1)
          < (2 ^ 52 + 2 ^ 52) * 2 ^ (a / 2 ^ 52 - 1) :=
            Nat.mul_lt_mul_of_pos_right (by omega) (by omega)
        _ = 2 ^ 52 * (2 * 2 ^ (a / 2 ^ 52 - 1)) := by ring
        _ ≤ 2 ^ 52 * 2 ^ (b / 2 ^ 52 - 1) := Nat.mul_le_mul_left _ hp
        _ ≤ (2 ^ 52 + b % 2 ^ 52) * 2 ^ (b / 2 ^ 52 - 1) :=
            Nat.mul_le_mul_right _ (by omega)
    · rw [← heq]
      have hP : 1 ≤ 2 ^ (a / 2 ^ 52 - 1) := Nat.one_le_two_pow
      have hm : a % 2 ^ 52 < b % 2 ^ 52 := by
        rw [← heq] at hdb
        have hmul : 2 ^ 52 * (a / 2 ^ 52) = 2 ^ 52 * (a / 2 ^ 52) := rfl
        omega
      exact Nat.mul_lt_mul_of_pos_right (by omega) (by omega)

theorem scaledValue_lt_iff (a b : Nat) : scaledValue a < scaledValue b ↔ a < b := by
  constructor
  · intro h
    rcases Nat.lt_trichotomy a b with h1 | h1 | h1
    · exact h1
    · subst h1
      exact absurd h (Nat.lt_irrefl _)
    · exact absurd h (Nat.lt_asymm (scaledValue_lt b a h1))
  · exact scaledValue_lt a b

/-- C19: byte-wise lexicographic comparison of the keys of two numbers is the
unsigned comparison of their bit patterns. So keys of numbers with the sign
bit clear sort by bit pattern, which for finite non-negative numbers is the
numeric order, and the key of a number with the sign bit clear sorts before
the key of every number with the sign bit set. -/
theorem number_key_order (x y : Float64) :
    ∃ kx ky, toBytes (Value.float64 x) = (some kx, none) ∧
      toBytes (Value.float64 y) = (some ky, none) ∧
      bytesCompare kx ky = compare (Float64bits x) (Float64bits y) ∧
      (bytesCompare kx ky = Ordering.lt ↔ Float64bits x < Float64bits y) ∧
      (Float64bits x < 2 ^ 63 → 2 ^ 63 ≤ Float64bits y →
        bytesCompare kx ky = Ordering.lt) ∧
      (Float64bits x < 0x7FF0000000000000 → Float64bits y < 0x7FF0000000000000 →
        (bytesCompare kx ky = Ordering.lt ↔
          scaledValue (Float64bits x) < scaledValue (Float64bits y))) := by
  have hc := bytesCompare_PutUint64 (Float64bits x) (Float64bits y) (Float64bits_lt x)
    (Float64bits_lt y)
  refine ⟨PutUint64 (Float64bits x), PutUint64 (Float64bits y), rfl, rfl, hc, ?_, ?_, ?_⟩
  · rw [hc]
    exact compare_lt_iff_lt
  · intro h1 h2
    rw [hc]
    exact compare_lt_iff_lt.mpr (Nat.lt_of_lt_of_le h1 h2)
  · intro _ _
    rw [hc, scaledValue_lt_iff]
    exact compare_lt_iff_lt

/-- Witness of C19: the key of `1.0` sorts before the key of `2.0` and before
the key of `-1.0`, whose sign bit is set. -/
theorem number_key_order_witness :
    bytesCompare [0x3F, 0xF0, 0, 0, 0, 0, 0, 0] [0x40, 0, 0, 0, 0, 0, 0, 0] = Ordering.lt ∧
    (∃ kx ky, toBytes (Value.float64 ⟨0x3FF0000000000000⟩) = (some kx, none) ∧
      toBytes (Value.float64 ⟨0xBFF0000000000000⟩) = (some ky, none) ∧
      bytesCompare kx ky = Ordering.lt) :=
  ⟨by decide,
   (number_key_order ⟨0x3FF0000000000000⟩ ⟨0xBFF0000000000000⟩).elim fun kx h =>
     h.elim fun ky h2 =>
       ⟨kx, ky, h2.1, h2.2.1, h2.2.2.2.2.1 (by decide) (by decide)⟩⟩

/-! ## The tokenizer: shared lemmas -/

theorem dropWhile_head_false {α : Type} (sp : α → Bool) (s : List α) (a : α) (rest : List α)
    (h : s.dropWhile sp = a :: rest) : sp a = false := by
  have := List.head_dropWhile_not sp s (by rw [h]; simp)
  simpa [h] using this

theorem findAllNonSpace_fuel {α : Type} (sp : α → Bool) :
    ∀ (fuel fuel2 : Nat) (s : List α), s.length < fuel → s.length < fuel2 →
      findAllNonSpace sp fuel s = findAllNonSpace sp fuel2 s
  | 0, _, _, h, _ => absurd h (Nat.not_lt_zero _)
  | _ + 1, 0, _, _, h => absurd h (Nat.not_lt_zero _)
  | f + 1, f2 + 1, s, h, h2 => by
    simp only [findAllNonSpace]
    cases hd : s.dropWhile sp with
    | nil => rfl
    | cons a rest =>
      have ha := dropWhile_head_false sp s a rest hd
      have hlen : (a :: rest).length ≤ s.length := by
        rw [← hd]; exact (List.dropWhile_suffix sp).length_le
      have hr : ((a :: rest).dropWhile fun c => !sp c).length ≤ rest.length := by
        rw [List.dropWhile_cons_of_pos (by simp [ha])]
        exact (List.dropWhile_suffix _).length_le
      simp only [List.length_cons] at hlen
      simp only
      rw [findAllNonSpace_fuel sp f f2 _ (by omega) (by omega)]

theorem nonSpaceRuns_of_all_space {α : Type} (sp : α → Bool) (s : List α)
    (h : ∀ c ∈ s, sp c = true) : nonSpaceRuns sp s = [] := by
  have hd : s.dropWhile sp = [] := List.dropWhile_eq_nil_iff.mpr h
  simp only [nonSpaceRuns, findAllNonSpace, hd]

theorem nonSpaceRuns_append_space {α : Type} (sp : α → Bool) (w s : List α)
    (h : ∀ c ∈ w, sp c = true) : nonSpaceRuns sp (w ++ s) = nonSpaceRuns sp s := by
  have hd : (w ++ s).dropWhile sp = s.dropWhile sp := List.dropWhile_append_of_pos h
  simp only [nonSpaceRuns, findAllNonSpace, hd]
  cases hs : s.dropWhile sp with
  | nil => rfl
  | cons a rest =>
    have ha := dropWhile_head_false sp s a rest hs
    have hlen : (a :: rest).length ≤ s.length := by
      rw [← hs]; exact (List.dropWhile_suffix sp).length_le
    have hr : ((a :: rest).dropWhile fun c => !sp c).length ≤ rest.length := by
      rw [List.dropWhile_cons_of_pos (by simp [ha])]
      exact (List.dropWhile_suffix _).length_le
    simp only [List.length_cons, List.length_append] at hlen ⊢
    rw [findAllNonSpace_fuel sp (w.length + s.length) s.length _ (by omega) (by omega)]

theorem nonSpaceRuns_token {α : Type} (sp : α → Bool) (t r : List α) (ht : t ≠ [])
    (hns : ∀ c ∈ t, sp c = false) (hr : ∀ c ∈ r.head?, sp c = true) :
    nonSpaceRuns sp (t ++ r) = t :: nonSpaceRuns sp r := by
  obtain ⟨a, t2, rfl⟩ := List.exists_cons_of_ne_nil ht
  have ha : sp a = false := hns a (List.mem_cons_self _ _)
  have hd : ((a :: t2) ++ r).dropWhile sp = (a :: t2) ++ r := by
    rw [List.cons_append, List.dropWhile_cons_of_neg (by simp [ha])]
  have hnsp : ∀ c ∈ a :: t2, (fun c => !sp c) c = true := by
    intro c hc; simp [hns c hc]
  have hrt : r.takeWhile (fun c => !sp c) = [] := by
    cases r with
    | nil => rfl
    | cons b r2 =>
      have hb : sp b = true := hr b (by simp)
      rw [List.takeWhile_cons_of_neg (by simp [hb])]
  have hrd : r.dropWhile (fun c => !sp c) = r := by
    cases r with
    | nil => rfl
    | cons b r2 =>
      have hb : sp b = true := hr b (by simp)
      rw [List.dropWhile_cons_of_neg (by simp [hb])]
  have htk : ((a :: t2) ++ r).takeWhile (fun c => !sp c) = a :: t2 := by
    rw [List.takeWhile_append_of_pos hnsp, hrt, List.append_nil]
  have hdr : ((a :: t2) ++ r).dropWhile (fun c => !sp c) = r := by
    rw [List.dropWhile_append_of_pos hnsp, hrd]
  have e : nonSpaceRuns sp ((a :: t2) ++ r) =
      ((a :: t2) ++ r).takeWhile (fun c => !sp c) ::
        findAllNonSpace sp ((a :: t2) ++ r).length
          (((a :: t2) ++ r).dropWhile (fun c => !sp c)) := by
    simp only [nonSpaceRuns, findAllNonSpace, hd]
    rfl
  rw [e, htk, hdr]
  congr 1
  exact findAllNonSpace_fuel sp _ _ r (by simp; omega) (by omega)

theorem weave_head_space {α : Type} (sp : α → Bool) (seps toks : List (List α))
    (hl : seps.length = toks.length + 1) (hs : ∀ w ∈ seps, ∀ c ∈ w, sp c = true)
    (hi : toks ≠ [] → ∀ w ∈ seps.head?, w ≠ []) :
    ∀ c ∈ (weave seps toks).head?, sp c = true := by
  cases seps with
  | nil => simp at hl
  | cons w1 seps2 =>
    cases toks with
    | nil =>
      intro c hc
      simp only [weave] at hc
      exact hs w1 (List.mem_cons_self _ _) c (List.mem_of_mem_head? hc)
    | cons t2 ts2 =>
      intro c hc
      have hw1 : w1 ≠ [] := hi (by simp) w1 (by simp)
      obtain ⟨x, w1t, rfl⟩ := List.exists_cons_of_ne_nil hw1
      simp only [weave, List.cons_append, List.head?_cons, Option.mem_def,
        Option.some.injEq] at hc
      subst hc
      exact hs _ (List.mem_cons_self _ _) _ (List.mem_cons_self _ _)

theorem runs_of_decomposition {α : Type} (sp : α → Bool) :
    ∀ (toks seps : List (List α)) (text : List α),
      IsRunDecomposition sp text toks seps → nonSpaceRuns sp text = toks
  | [], seps, text, h => by
    obtain ⟨hl, hw, hs, _, _⟩ := h
    cases seps with
    | nil => simp at hl
    | cons w seps1 =>
      simp only [weave] at hw
      subst hw
      exact nonSpaceRuns_of_all_space sp _ (hs _ (List.mem_cons_self _ _))
  | t :: ts, seps, text, h => by
    obtain ⟨hl, hw, hs, ht, hi⟩ := h
    cases seps with
    | nil => simp at hl
    | cons w seps1 =>
      have hl1 : seps1.length = ts.length + 1 := by simpa using hl
      simp only [weave] at hw
      subst hw
      have hsub : ∀ x ∈ seps1.tail.dropLast, x ∈ (w :: seps1).tail.dropLast := by
        intro x hx
        cases seps1 with
        | nil => simp at hx
        | cons w1 seps2 =>
          cases seps2 with
          | nil => simp at hx
          | cons w2 seps3 =>
            simp only [List.tail_cons] at hx ⊢
            rw [List.dropLast_cons₂]
            exact List.mem_cons_of_mem _ hx
      have hdec : IsRunDecomposition sp (weave seps1 ts) ts seps1 :=
        ⟨hl1, rfl, fun x hx => hs x (List.mem_cons_of_mem _ hx),
          fun x hx => ht x (List.mem_cons_of_mem _ hx), fun x hx => hi x (hsub x hx)⟩
      have hhead : ∀ c ∈ (weave seps1 ts).head?, sp c = true := by
        apply weave_head_space sp seps1 ts hl1 (fun x hx => hs x (List.mem_cons_of_mem _ hx))
        intro hts x hx
        apply hi
        cases seps1 with
        | nil => simp at hx
        | cons w1 seps2 =>
          cases seps2 with
          | nil =>
            cases ts with
            | nil => exact absurd rfl hts
            | cons _ _ => simp at hl1
          | cons w2 seps3 =>
            simp only [List.head?_cons, Option.mem_def, Option.some.injEq] at hx
            subst hx
            simp only [List.tail_cons]
            rw [List.dropLast_cons₂]
            exact List.mem_cons_self _ _
      rw [List.append_assoc, nonSpaceRuns_append_space sp _ _ (hs w (List.mem_cons_self _ _)),
        nonSpaceRuns_token sp t _ (ht t (List.mem_cons_self _ _)).1
          (ht t (List.mem_cons_self _ _)).2 hhead,
        runs_of_decomposition sp ts seps1 _ hdec]

theorem decomposition_exists {α : Type} (sp : α → Bool) :
    ∀ (n : Nat) (text : List α), text.length ≤ n →
      ∃ seps, IsRunDecomposition sp text (nonSpaceRuns sp text) seps := by
  intro n
  induction n with
  | zero =>
    intro text h
    have : text = [] := List.length_eq_zero.mp (Nat.le_zero.mp h)
    subst this
    exact ⟨[[]], by simp [IsRunDecomposition, nonSpaceRuns_of_all_space, weave]⟩
  | succ n ih =>
    intro text h
    cases hd : text.dropWhile sp with
    | nil =>
      have hall : ∀ c ∈ text, sp c = true := List.dropWhile_eq_nil_iff.mp hd
      refine ⟨[text], ?_⟩
      rw [nonSpaceRuns_of_all_space sp text hall]
      exact ⟨rfl, rfl, by simpa using hall, by simp, by simp⟩
    | cons a rest =>
      have ha := dropWhile_head_false sp text a rest hd
      have hw : ∀ c ∈ text.takeWhile sp, sp c = true := fun c hc => List.mem_takeWhile_imp hc
      have htext : text = text.takeWhile sp ++ (a :: rest) := by
        rw [← hd, List.takeWhile_append_dropWhile]
      have hsplit : a :: rest = (a :: rest).takeWhile (fun c => !sp c) ++
          (a :: rest).dropWhile (fun c => !sp c) :=
        (List.takeWhile_append_dropWhile _ _).symm
      have htne : (a :: rest).takeWhile (fun c => !sp c) ≠ [] := by
        rw [List.takeWhile_cons_of_pos (by simp [ha])]
        simp
      have htns : ∀ c ∈ (a :: rest).takeWhile (fun c => !sp c), sp c = false := by
        intro c hc
        have := List.mem_takeWhile_imp hc
        simpa using this
      have hrhead : ∀ c ∈ ((a :: rest).dropWhile (fun c => !sp c)).head?, sp c = true := by
        intro c hc
        have := List.head?_dropWhile_not (fun c => !sp c) (a :: rest)
        rw [Option.mem_def] at hc
        rw [hc] at this
        simpa using this
      have hrlen : ((a :: rest).dropWhile (fun c => !sp c)).length ≤ n := by
        have h1 : ((a :: rest).dropWhile fun c => !sp c).length ≤ rest.length := by
          rw [List.dropWhile_cons_of_pos (by simp [ha])]
          exact (List.dropWhile_suffix _).length_le
        have h2 : (a :: rest).length ≤ text.length := by
          rw [← hd]; exact (List.dropWhile_suffix sp).length_le
        simp only [List.length_cons] at h2
        omega
      obtain ⟨sepsr, hl, hwv, hs, ht, hi⟩ := ih _ hrlen
      have hruns : nonSpaceRuns sp text =
          (a :: rest).takeWhile (fun c => !sp c) ::
            nonSpaceRuns sp ((a :: rest).dropWhile (fun c => !sp c)) := by
        conv_lhs => rw [htext, nonSpaceRuns_append_space sp _ _ hw, hsplit]
        exact nonSpaceRuns_token sp _ _ htne htns hrhead
      refine ⟨text.takeWhile sp :: sepsr, ?_⟩
      rw [hruns]
      refine ⟨by simp [hl], ?_, ?_, ?_, ?_⟩
      · simp only [weave]
        rw [hwv, List.append_assoc, ← hsplit, ← htext]
      · intro x hx
        rcases List.mem_cons.mp hx with rfl | hx
        · exact hw
        · exact hs x hx
      · intro x hx
        rcases List.mem_cons.mp hx with rfl | hx
        · exact ⟨htne, htns⟩
        · exact ht x hx
      · intro x hx
        simp only [List.tail_cons] at hx
        cases sepsr with
        | nil => simp at hx
        | cons w1 seps2 =>
          cases seps2 with
          | nil => simp at hx
          | cons w2 seps3 =>
            rw [List.dropLast_cons₂] at hx
            rcases List.mem_cons.mp hx with rfl | hx
            · intro hx0
              subst hx0
              -- the remainder would start with a token
              cases hrr : nonSpaceRuns sp ((a :: rest).dropWhile fun c => !sp c) with
              | nil => rw [hrr] at hl; simp at hl
              | cons t2 ts2 =>
                rw [hrr] at hwv ht
                obtain ⟨ht2ne, ht2ns⟩ := ht t2 (List.mem_cons_self _ _)
                obtain ⟨y, t2t, rfl⟩ := List.exists_cons_of_ne_nil ht2ne
                simp only [weave, List.nil_append, List.cons_append] at hwv
                have := hrhead y (by rw [← hwv]; simp)
                rw [ht2ns y (List.mem_cons_self _ _)] at this
                exact absurd this (by simp)
            · exact hi x (by simpa using hx)

theorem split_first_run {α : Type} (sp : α → Bool) (s : List α)
    (h : ¬ ∀ c ∈ s, sp c = true) :
    ∃ w t r, s = w ++ (t ++ r) ∧ (∀ c ∈ w, sp c = true) ∧ t ≠ [] ∧
      (∀ c ∈ t, sp c = false) ∧ (∀ c ∈ r.head?, sp c = true) ∧ r.length < s.length := by
  cases hd : s.dropWhile sp with
  | nil => exact absurd (List.dropWhile_eq_nil_iff.mp hd) h
  | cons a rest =>
    have ha := dropWhile_head_false sp s a rest hd
    refine ⟨s.takeWhile sp, (a :: rest).takeWhile (fun c => !sp c),
      (a :: rest).dropWhile (fun c => !sp c), ?_, fun c hc => List.mem_takeWhile_imp hc,
      ?_, ?_, ?_, ?_⟩
    · rw [List.takeWhile_append_dropWhile, ← hd, List.takeWhile_append_dropWhile]
    · rw [List.takeWhile_cons_of_pos (by simp [ha])]
      simp
    · intro c hc
      have := List.mem_takeWhile_imp hc
      simpa using this
    · intro c hc
      have := List.head?_dropWhile_not (fun c => !sp c) (a :: rest)
      rw [Option.mem_def] at hc
      rw [hc] at this
      simpa using this
    · have h1 : ((a :: rest).dropWhile fun c => !sp c).length ≤ rest.length := by
        rw [List.dropWhile_cons_of_pos (by simp [ha])]
        exact (List.dropWhile_suffix _).length_le
      have h2 : (a :: rest).length ≤ s.length := by
        rw [← hd]; exact (List.dropWhile_suffix sp).length_le
      simp only [List.length_cons] at h2
      omega

theorem nonSpaceRuns_append_trail {α : Type} (sp : α → Bool) (trail : List α)
    (ht : ∀ c ∈ trail, sp c = true) :
    ∀ (n : Nat) (s : List α), s.length ≤ n →
      nonSpaceRuns sp (s ++ trail) = nonSpaceRuns sp s := by
  intro n
  induction n with
  | zero =>
    intro s h
    have : s = [] := List.length_eq_zero.mp (Nat.le_zero.mp h)
    subst this
    rw [List.nil_append, nonSpaceRuns_of_all_space sp trail ht,
      nonSpaceRuns_of_all_space sp [] (by simp)]
  | succ n ih =>
    intro s h
    by_cases hall : ∀ c ∈ s, sp c = true
    · rw [nonSpaceRuns_of_all_space sp s hall, nonSpaceRuns_of_all_space sp (s ++ trail)]
      intro c hc
      rcases List.mem_append.mp hc with hc | hc
      · exact hall c hc
      · exact ht c hc
    · obtain ⟨w, t, r, hs, hw, htne, htns, hr, hlen⟩ := split_first_run sp s hall
      have hr2 : ∀ c ∈ (r ++ trail).head?, sp c = true := by
        intro c hc
        cases r with
        | nil => exact ht c (List.mem_of_mem_head? (by simpa using hc))
        | cons b r2 => exact hr c (by simpa using hc)
      have e1 : s ++ trail = w ++ (t ++ (r ++ trail)) := by
        rw [hs]; simp only [List.append_assoc]
      rw [e1, nonSpaceRuns_append_space sp _ _ hw, nonSpaceRuns_token sp t _ htne htns hr2,
        ih r (by omega)]
      conv_rhs => rw [hs, nonSpaceRuns_append_space sp _ _ hw,
        nonSpaceRuns_token sp t _ htne htns hr]

theorem nonSpaceRuns_ne_nil {α : Type} (sp : α → Bool) (s : List α)
    (h : ¬ ∀ c ∈ s, sp c = true) : nonSpaceRuns sp s ≠ [] := by
  obtain ⟨w, t, r, hs, hw, htne, htns, hr, _⟩ := split_first_run sp s h
  rw [hs, nonSpaceRuns_append_space sp _ _ hw, nonSpaceRuns_token sp t _ htne htns hr]
  simp

theorem WhiteSpaceTokenizer_bytes (text : GoString) :
    ((WhiteSpaceTokenizer text).getD []).map GoString.bytes =
      nonSpaceRuns isSpace text.bytes := by
  unfold WhiteSpaceTokenizer FindAllString
  cases h : nonSpaceRuns isSpace text.bytes with
  | nil => rfl
  | cons m ms =>
    simp only [Option.getD_some, List.map_map]
    have : (GoString.bytes ∘ GoString.mk) = id := rfl
    rw [this, List.map_id]

theorem WhiteSpaceTokenizer_eq (text : GoString) :
    WhiteSpaceTokenizer text =
      if nonSpaceRuns isSpace text.bytes = [] then none
      else some ((nonSpaceRuns isSpace text.bytes).map GoString.mk) := by
  unfold WhiteSpaceTokenizer FindAllString
  cases h : nonSpaceRuns isSpace text.bytes with
  | nil => rfl
  | cons m ms => simp

theorem isSpace_iff (c : Nat) :
    isSpace c = true ↔ c = 9 ∨ c = 10 ∨ c = 12 ∨ c = 13 ∨ c = 32 := by
  simp [isSpace, or_assoc]

/-- C12: the tokens of `WhiteSpaceTokenizer` are exactly the maximal runs of
non-whitespace of the text, in order: the text is `w0 t1 w1 ... tn wn` with
the tokens `t1 .. tn` non-empty and free of whitespace, the separators
`w0 .. wn` made of whitespace only and those between two tokens non-empty; and
the tokens of any such decomposition are the tokens returned. Whitespace is
tab, newline, form feed, carriage return and space. -/
theorem tokenizer_maximal_runs (text : GoString) :
    (∃ seps, IsRunDecomposition isSpace text.bytes
      (((WhiteSpaceTokenizer text).getD []).map GoString.bytes) seps) ∧
    (∀ toks seps, IsRunDecomposition isSpace text.bytes toks seps →
      ((WhiteSpaceTokenizer text).getD []).map GoString.bytes = toks) ∧
    (∀ c, isSpace c = true ↔ c = 9 ∨ c = 10 ∨ c = 12 ∨ c = 13 ∨ c = 32) := by
  rw [WhiteSpaceTokenizer_bytes]
  exact ⟨decomposition_exists isSpace _ text.bytes (Nat.le_refl _),
    fun toks seps h => runs_of_decomposition isSpace toks seps _ h, isSpace_iff⟩

/-- Witness of C12: `foo   bar\tbaz` gives `foo`, `bar`, `baz`, the
separators being the empty start, three spaces, a tab and the empty end. -/
theorem tokenizer_maximal_runs_witness :
    WhiteSpaceTokenizer ⟨asciiBytes "foo   bar\tbaz"⟩ =
      some [⟨asciiBytes "foo"⟩, ⟨asciiBytes "bar"⟩, ⟨asciiBytes "baz"⟩] ∧
    ((WhiteSpaceTokenizer ⟨asciiBytes "foo   bar\tbaz"⟩).getD []).map GoString.bytes =
      [asciiBytes "foo", asciiBytes "bar", asciiBytes "baz"] :=
  ⟨by decide,
   (tokenizer_maximal_runs ⟨asciiBytes "foo   bar\tbaz"⟩).2.1
     [asciiBytes "foo", asciiBytes "bar", asciiBytes "baz"]
     [[], asciiBytes "   ", asciiBytes "\t", []]
     (by unfold IsRunDecomposition; decide)⟩

/-- C13: no token is empty; the result is empty (the nil slice) exactly when
every character of the text is whitespace, the empty text included;
whitespace before and after a text adds no token. -/
theorem tokenizer_no_empty_token (text : GoString) :
    (∀ t ∈ (WhiteSpaceTokenizer text).getD [], t.bytes ≠ []) ∧
    (Slice.len (WhiteSpaceTokenizer text) = 0 ↔ ∀ c ∈ text.bytes, isSpace c = true) ∧
    ((∀ c ∈ text.bytes, isSpace c = true) → WhiteSpaceTokenizer text = none) ∧
    (∀ lead trail : Bytes, (∀ c ∈ lead, isSpace c = true) →
      (∀ c ∈ trail, isSpace c = true) →
      WhiteSpaceTokenizer ⟨lead ++ text.bytes ++ trail⟩ = WhiteSpaceTokenizer text) ∧
    WhiteSpaceTokenizer ⟨[]⟩ = none ∧
    WhiteSpaceTokenizer ⟨asciiBytes "  a   b "⟩ = some [⟨asciiBytes "a"⟩, ⟨asciiBytes "b"⟩] := by
  refine ⟨?_, ?_, ?_, ?_, by decide, by decide⟩
  · intro t ht
    obtain ⟨seps, _, _, _, htok, _⟩ := decomposition_exists isSpace _ text.bytes (Nat.le_refl _)
    rw [← WhiteSpaceTokenizer_bytes] at htok
    exact (htok t.bytes (List.mem_map_of_mem _ ht)).1
  · rw [WhiteSpaceTokenizer_eq]
    by_cases hall : ∀ c ∈ text.bytes, isSpace c = true
    · simpa [nonSpaceRuns_of_all_space isSpace _ hall, Slice.len] using hall
    · have := nonSpaceRuns_ne_nil isSpace _ hall
      simp only [this, if_false, Slice.len, List.length_map, List.length_eq_zero, hall]
  · intro hall
    rw [WhiteSpaceTokenizer_eq, nonSpaceRuns_of_all_space isSpace _ hall]
    simp
  · intro lead trail hl ht
    rw [WhiteSpaceTokenizer_eq, WhiteSpaceTokenizer_eq]
    simp only [List.append_assoc]
    rw [nonSpaceRuns_append_space isSpace _ _ hl,
      nonSpaceRuns_append_trail isSpace trail ht _ text.bytes (Nat.le_refl _)]

/-- Witness of C13: around `a b` two spaces before and a tab after add no
token. -/
theorem tokenizer_no_empty_token_witness :
    WhiteSpaceTokenizer ⟨asciiBytes "  " ++ (GoString.mk (asciiBytes "a b")).bytes ++
        asciiBytes "\t"⟩ = WhiteSpaceTokenizer ⟨asciiBytes "a b"⟩ :=
  (tokenizer_no_empty_token ⟨asciiBytes "a b"⟩).2.2.2.1 (asciiBytes "  ") (asciiBytes "\t")
    (by decide) (by decide)

/-! ## `ToLower` -/

theorem decodeRunesLossy_cons (b0 : Nat) (rest : Bytes) :
    decodeRunesLossy (b0 :: rest) =
      if b0 < 0x80 then b0 :: decodeRunesLossy rest
      else if b0 < 0xE0 then
        match rest with
        | b1 :: rest1 =>
          match rune2 b0 b1 with
          | some c => c :: decodeRunesLossy rest1
          | none => 0xFFFD :: decodeRunesLossy rest
        | _ => 0xFFFD :: decodeRunesLossy rest
      else if b0 < 0xF0 then
        match rest with
        | b1 :: b2 :: rest2 =>
          match rune3 b0 b1 b2 with
          | some c => c :: decodeRunesLossy rest2
          | none => 0xFFFD :: decodeRunesLossy rest
        | _ => 0xFFFD :: decodeRunesLossy rest
      else
        match rest with
        | b1 :: b2 :: b3 :: rest3 =>
          match rune4 b0 b1 b2 b3 with
          | some c => c :: decodeRunesLossy rest3
          | none => 0xFFFD :: decodeRunesLossy rest
        | _ => 0xFFFD :: decodeRunesLossy rest := by
  cases rest with
  | nil => rfl
  | cons b1 r1 =>
    cases r1 with
    | nil => rfl
    | cons b2 r2 =>
      cases r2 with
      | nil => rfl
      | cons b3 r3 => rfl

theorem rune2_encode (n : Nat) (h1 : ¬ n < 0x80) (h2 : n < 0x800) :
    rune2 (0xC0 + n / 64) (0x80 + n % 64) = some n := by
  unfold rune2 isCont
  rw [if_pos (by omega)]
  exact congrArg some (by omega)

theorem rune3_encode (n : Nat) (h2 : ¬ n < 0x800) (h3 : n < 0x10000)
    (hv : n < 0xd800 ∨ (0xdfff < n ∧ n < 0x110000)) :
    rune3 (0xE0 + n / 4096) (0x80 + n / 64 % 64) (0x80 + n % 64) = some n := by
  unfold rune3 isCont
  simp only
  rw [if_pos (by omega)]
  exact congrArg some (by omega)

theorem rune4_encode (n : Nat) (h3 : ¬ n < 0x10000)
    (hv : n < 0xd800 ∨ (0xdfff < n ∧ n < 0x110000)) :
    rune4 (0xF0 + n / 262144) (0x80 + n / 4096 % 64) (0x80 + n / 64 % 64)
      (0x80 + n % 64) = some n := by
  unfold rune4 isCont
  simp only
  rw [if_pos (by omega)]
  exact congrArg some (by omega)

theorem decodeRunesLossy_encodeRune (c : Char) (rest : Bytes) :
    decodeRunesLossy (utf8EncodeRune c.toNat ++ rest) = c.toNat :: decodeRunesLossy rest := by
  have hv : c.toNat < 0xd800 ∨ (0xdfff < c.toNat ∧ c.toNat < 0x110000) := c.valid
  generalize c.toNat = n at hv ⊢
  unfold utf8EncodeRune
  split_ifs with h1 h2 h3
  · simp only [List.singleton_append]
    rw [decodeRunesLossy_cons, if_pos h1]
  · simp only [List.cons_append, List.nil_append]
    rw [decodeRunesLossy_cons, if_neg (by omega), if_pos (by omega)]
    dsimp only
    rw [rune2_encode n h1 h2]
  · simp only [List.cons_append, List.nil_append]
    rw [decodeRunesLossy_cons, if_neg (by omega), if_neg (by omega), if_pos (by omega)]
    dsimp only
    rw [rune3_encode n h2 h3 hv]
  · simp only [List.cons_append, List.nil_append]
    rw [decodeRunesLossy_cons, if_neg (by omega), if_neg (by omega), if_neg (by omega)]
    dsimp only
    rw [rune4_encode n h3 hv]

theorem decodeRunesLossy_encode (cs : List Char) :
    decodeRunesLossy (cs.flatMap fun c => utf8EncodeRune c.toNat) = cs.map Char.toNat := by
  induction cs with
  | nil => rfl
  | cons c cs ih => rw [List.flatMap_cons, decodeRunesLossy_encodeRune, ih, List.map_cons]

theorem stringsToLower_encode (lower : Char → Char) (cs : List Char) :
    stringsToLower lower ⟨cs.flatMap fun c => utf8EncodeRune c.toNat⟩ =
      ⟨(cs.map lower).flatMap fun c => utf8EncodeRune c.toNat⟩ := by
  simp only [stringsToLower, decodeRunesLossy_encode, List.flatMap_map, Char.ofNat_toNat]

theorem stringsToLower_eq_encode (lower : Char → Char) (s : GoString) :
    stringsToLower lower s =
      ⟨((decodeRunesLossy s.bytes).map fun n => lower (Char.ofNat n)).flatMap
        fun c => utf8EncodeRune c.toNat⟩ := by
  simp only [stringsToLower, List.flatMap_map]

theorem stringsToLower_idem (lower : Char → Char) (h : ∀ c, lower (lower c) = lower c)
    (s : GoString) :
    stringsToLower lower (stringsToLower lower s) = stringsToLower lower s := by
  rw [stringsToLower_eq_encode lower s, stringsToLower_encode, List.map_map]
  congr 2
  apply List.map_congr_left
  intro n _
  exact h _

/-- C14: on a text `ToLower` returns the text whose characters are the images
under `unicode.ToLower` of the characters of the input, as a string; on a
value whose dynamic type is none of `string`, `Key` and `[]byte` it returns
the value itself. `ToLower` has no error result. -/
theorem toLower_text_and_identity (env : Env) :
    (∀ t : String, ToLower env (Value.str (GoString.ofText t)) =
      Value.str (GoString.ofText (String.mk (t.data.map env.unicodeToLower)))) ∧
    (∀ v : Value, v.dynType ≠ GoType.string → v.dynType ≠ GoType.key →
      v.dynType ≠ GoType.sliceUint8 → ToLower env v = v) ∧
    (∀ x : Float64, ToLower env (Value.float64 x) = Value.float64 x) := by
  refine ⟨?_, ?_, fun _ => rfl⟩
  · intro t
    simp only [ToLower, GoString.ofText, utf8Encode, stringsToLower_encode]
  · intro v h1 h2 h3
    cases v <;> simp_all [ToLower, Value.dynType]

theorem charToLower_toNat (c : Char) :
    c.toLower.toNat = if 65 ≤ c.toNat ∧ c.toNat ≤ 90 then c.toNat + 32 else c.toNat := by
  have hc : c = Char.ofNat c.toNat := (Char.ofNat_toNat c).symm
  by_cases h : 65 ≤ c.toNat ∧ c.toNat ≤ 90
  · rw [if_pos h]
    generalize c.toNat = n at hc h
    subst hc
    obtain ⟨h1, h2⟩ := h
    interval_cases n <;> rfl
  · rw [if_neg h]
    unfold Char.toLower
    simp only [ge_iff_le]
    rw [if_neg h]

theorem charToLower_idem (c : Char) : c.toLower.toLower = c.toLower := by
  have h1 := charToLower_toNat c
  have h2 := charToLower_toNat c.toLower
  have : c.toLower.toLower.toNat = c.toLower.toNat := by
    rw [h2]
    split_ifs at h1 ⊢ <;> omega
  rw [← Char.ofNat_toNat c.toLower.toLower, this, Char.ofNat_toNat]

theorem charToLower_isSpace (c : Char) : isSpace c.toLower.toNat = isSpace c.toNat := by
  have h1 := charToLower_toNat c
  by_cases h : 65 ≤ c.toNat ∧ c.toNat ≤ 90
  · rw [if_pos h] at h1
    have e1 : isSpace c.toLower.toNat = false := by
      rw [h1]; simp [isSpace]; omega
    have e2 : isSpace c.toNat = false := by
      simp [isSpace]; omega
    rw [e1, e2]
  · rw [if_neg h] at h1
    rw [h1]

/-- Witness of C14: `Hello` becomes `hello`, a float64 is returned as it is. -/
theorem toLower_text_and_identity_witness :
    ToLower exampleEnv (Value.str (GoString.ofText "Hello")) =
      Value.str (GoString.ofText "hello") ∧
    ToLower exampleEnv (Value.float64 ⟨0x3FF0000000000000⟩) =
      Value.float64 ⟨0x3FF0000000000000⟩ :=
  ⟨((toLower_text_and_identity exampleEnv).1 "Hello").trans (by decide),
   (toLower_text_and_identity exampleEnv).2.1 (Value.float64 ⟨0x3FF0000000000000⟩)
     (by decide) (by decide) (by decide)⟩

/-- For any table: if `unicode.ToLower` is idempotent on characters, then
`ToLower` is idempotent on every value. -/
theorem toLower_idempotent_of_table (env : Env)
    (h : ∀ c, env.unicodeToLower (env.unicodeToLower c) = env.unicodeToLower c)
    (v : Value) : ToLower env (ToLower env v) = ToLower env v := by
  cases v <;> simp only [ToLower, stringsToLower_idem _ h]

/-- Idempotence of `ToLower` on texts needs the idempotence of
`unicode.ToLower` on characters. -/
theorem unicodeToLower_idem_of_toLower (env : Env)
    (h : ∀ t : String, ToLower env (ToLower env (Value.str (GoString.ofText t))) =
      ToLower env (Value.str (GoString.ofText t)))
    (c : Char) : env.unicodeToLower (env.unicodeToLower c) = env.unicodeToLower c := by
  have h1 := h (String.mk [c])
  simp only [ToLower, GoString.ofText, utf8Encode, stringsToLower_encode, List.map_cons,
    List.map_nil, Value.str.injEq, GoString.mk.injEq] at h1
  have e1 := utf8Decode_encode (String.mk [env.unicodeToLower (env.unicodeToLower c)])
  have e2 := utf8Decode_encode (String.mk [env.unicodeToLower c])
  simp only [utf8Encode] at e1 e2
  rw [h1, e2] at e1
  have e3 := Option.some.inj e1
  have e4 := congrArg String.data e3
  simp only [List.cons.injEq, and_true] at e4
  exact e4.symm

/-! ## Tokenizing and lower-casing -/

theorem weave_flatMap {α β : Type} (f : α → List β) :
    ∀ (seps toks : List (List α)),
      weave (seps.map fun w => w.flatMap f) (toks.map fun t => t.flatMap f) =
        (weave seps toks).flatMap f
  | [], _ => by simp [weave]
  | w :: seps, [] => by simp [weave]
  | w :: seps, t :: toks => by
    simp only [List.map_cons, weave, List.flatMap_append, weave_flatMap f seps toks]

theorem flatMap_ne_nil {α β : Type} (f : α → List β) (hne : ∀ a, f a ≠ []) (l : List α)
    (h : l ≠ []) : l.flatMap f ≠ [] := by
  obtain ⟨a, l2, rfl⟩ := List.exists_cons_of_ne_nil h
  intro h0
  rw [List.flatMap_cons, List.append_eq_nil] at h0
  exact hne a h0.1

theorem decomposition_flatMap {α β : Type} (sp : α → Bool) (sq : β → Bool) (f : α → List β)
    (hne : ∀ a, f a ≠ []) (hsp : ∀ a, ∀ b ∈ f a, sq b = sp a)
    (text : List α) (toks seps : List (List α))
    (h : IsRunDecomposition sp text toks seps) :
    IsRunDecomposition sq (text.flatMap f) (toks.map fun t => t.flatMap f)
      (seps.map fun w => w.flatMap f) := by
  obtain ⟨hl, hw, hs, ht, hi⟩ := h
  refine ⟨by simp [hl], by rw [weave_flatMap, hw], ?_, ?_, ?_⟩
  · intro w2 hw2 c hc
    obtain ⟨w, hwm, rfl⟩ := List.mem_map.mp hw2
    obtain ⟨a, ha, hca⟩ := List.mem_flatMap.mp hc
    rw [hsp a c hca]
    exact hs w hwm a ha
  · intro t2 ht2
    obtain ⟨t, htm, rfl⟩ := List.mem_map.mp ht2
    refine ⟨flatMap_ne_nil f hne t (ht t htm).1, ?_⟩
    intro c hc
    obtain ⟨a, ha, hca⟩ := List.mem_flatMap.mp hc
    rw [hsp a c hca]
    exact (ht t htm).2 a ha
  · intro w2 hw2
    rw [← List.map_tail, ← List.map_dropLast] at hw2
    obtain ⟨w, hwm, rfl⟩ := List.mem_map.mp hw2
    exact flatMap_ne_nil f hne w (hi w hwm)

theorem nonSpaceRuns_flatMap {α β : Type} (sp : α → Bool) (sq : β → Bool) (f : α → List β)
    (hne : ∀ a, f a ≠ []) (hsp : ∀ a, ∀ b ∈ f a, sq b = sp a) (text : List α) :
    nonSpaceRuns sq (text.flatMap f) = (nonSpaceRuns sp text).map fun t => t.flatMap f := by
  obtain ⟨seps, h⟩ := decomposition_exists sp _ text (Nat.le_refl _)
  exact runs_of_decomposition sq _ _ _ (decomposition_flatMap sp sq f hne hsp _ _ _ h)

theorem nonSpaceRuns_map {α β : Type} (sp : α → Bool) (sq : β → Bool) (g : α → β)
    (hsp : ∀ a, sq (g a) = sp a) (text : List α) :
    nonSpaceRuns sq (text.map g) = (nonSpaceRuns sp text).map fun t => t.map g := by
  have := nonSpaceRuns_flatMap sp sq (fun a => [g a]) (by simp)
    (by intro a b hb; simp only [List.mem_singleton] at hb; rw [hb, hsp]) text
  simpa only [← List.map_eq_flatMap] using this

theorem utf8EncodeRune_ne_nil (n : Nat) : utf8EncodeRune n ≠ [] := by
  unfold utf8EncodeRune
  split_ifs <;> simp

theorem isSpace_of_ge (b : Nat) (h : 33 ≤ b) : isSpace b = false := by
  cases hb : isSpace b with
  | false => rfl
  | true =>
    rw [isSpace_iff] at hb
    omega

theorem utf8EncodeRune_isSpace (n : Nat) : ∀ b ∈ utf8EncodeRune n, isSpace b = isSpace n := by
  intro b hb
  unfold utf8EncodeRune at hb
  split_ifs at hb with h1 h2 h3
  · simp only [List.mem_singleton] at hb
    rw [hb]
  all_goals
    rw [isSpace_of_ge n (by omega)]
    simp only [List.mem_cons, List.mem_singleton, List.not_mem_nil, or_false] at hb
    apply isSpace_of_ge
    omega

/-- C20: on a text, tokenizing the lower-cased text gives the lower-cased
tokens of the text, in the same number and order, `unicode.ToLower` mapping
whitespace to whitespace and nothing else to whitespace. -/
theorem tokenize_toLower_commute (env : Env)
    (hsp : ∀ c : Char, isSpace (env.unicodeToLower c).toNat = isSpace c.toNat)
    (t : String) :
    ∃ lowered, ToLower env (Value.str (GoString.ofText t)) = Value.str lowered ∧
      ((WhiteSpaceTokenizer lowered).getD []).map Value.str =
        ((WhiteSpaceTokenizer (GoString.ofText t)).getD []).map
          (fun tok => ToLower env (Value.str tok)) ∧
      Slice.len (WhiteSpaceTokenizer lowered) =
        Slice.len (WhiteSpaceTokenizer (GoString.ofText t)) := by
  have henc : ∀ cs : List Char,
      nonSpaceRuns isSpace (cs.flatMap fun c => utf8EncodeRune c.toNat) =
        (nonSpaceRuns (fun c : Char => isSpace c.toNat) cs).map
          fun x => x.flatMap fun c => utf8EncodeRune c.toNat :=
    fun cs => nonSpaceRuns_flatMap (fun c : Char => isSpace c.toNat) isSpace
      (fun c => utf8EncodeRune c.toNat) (fun c => utf8EncodeRune_ne_nil _)
      (fun c => utf8EncodeRune_isSpace _) cs
  have hlow := nonSpaceRuns_map (fun c : Char => isSpace c.toNat)
    (fun c : Char => isSpace c.toNat) env.unicodeToLower hsp t.data
  have hbytes : ((WhiteSpaceTokenizer (stringsToLower env.unicodeToLower
        (GoString.ofText t))).getD []).map GoString.bytes =
      (((WhiteSpaceTokenizer (GoString.ofText t)).getD []).map
        (stringsToLower env.unicodeToLower)).map GoString.bytes := by
    rw [List.map_map, WhiteSpaceTokenizer_bytes]
    have hR : ((WhiteSpaceTokenizer (GoString.ofText t)).getD []) =
        (nonSpaceRuns isSpace (GoString.ofText t).bytes).map GoString.mk := by
      rw [WhiteSpaceTokenizer_eq]
      split_ifs with h0
      · simp [h0]
      · rfl
    rw [hR]
    simp only [GoString.ofText, utf8Encode, stringsToLower_encode, henc, hlow, List.map_map]
    apply List.map_congr_left
    intro x _
    simp only [Function.comp, stringsToLower_encode]
  have hinj : Function.Injective GoString.bytes := by
    intro a b hab
    cases a; cases b; simpa using hab
  have htoks := List.map_injective_iff.mpr hinj hbytes
  refine ⟨stringsToLower env.unicodeToLower (GoString.ofText t), rfl, ?_, ?_⟩
  · rw [htoks, List.map_map]
    rfl
  · have hlen := congrArg List.length htoks
    simp only [List.length_map] at hlen
    have hnone : ∀ s : GoString, Slice.len (WhiteSpaceTokenizer s) =
        ((WhiteSpaceTokenizer s).getD []).length := by
      intro s
      cases WhiteSpaceTokenizer s <;> rfl
    rw [hnone, hnone, hlen]

/-- Witness of C20: for `Foo  BAR` both ways give `foo`, `bar`. -/
theorem tokenize_toLower_commute_witness :
    (∃ lowered, ToLower exampleEnv (Value.str (GoString.ofText "Foo  BAR")) =
        Value.str lowered ∧
      ((WhiteSpaceTokenizer lowered).getD []).map Value.str =
        ((WhiteSpaceTokenizer (GoString.ofText "Foo  BAR")).getD []).map
          (fun tok => ToLower exampleEnv (Value.str tok)) ∧
      Slice.len (WhiteSpaceTokenizer lowered) =
        Slice.len (WhiteSpaceTokenizer (GoString.ofText "Foo  BAR"))) ∧
    ((WhiteSpaceTokenizer (GoString.ofText "Foo  BAR")).getD []).map
        (fun tok => ToLower exampleEnv (Value.str tok)) =
      [Value.str ⟨asciiBytes "foo"⟩, Value.str ⟨asciiBytes "bar"⟩] :=
  ⟨tokenize_toLower_commute exampleEnv charToLower_isSpace "Foo  BAR", by decide⟩

/-! ## The table of `unicode.ToLower` -/

set_option maxRecDepth 100000 in
theorem lowerCaseRuns_imageMisses :
    (lowerCaseRuns.all fun e => lowerCaseRuns.all fun e2 => e.imageMisses e2) = true := by
  decide!

theorem lowerCaseRuns_imageValid : (lowerCaseRuns.all fun e => e.imageValid) = true := by
  decide!

theorem covers_iff (e : CaseRun) (r : Nat) :
    e.covers r = true ↔ e.lo ≤ r ∧ r ≤ e.hi ∧ (r - e.lo) % e.stride = 0 := by
  simp [CaseRun.covers, and_assoc]

theorem toLowerRuneIn_cases (table : List CaseRun) (r : Nat) :
    (toLowerRuneIn table r = r ∧ table.find? (fun e => e.covers r) = none) ∨
    ∃ e ∈ table, e.covers r = true ∧ toLowerRuneIn table r = e.tlo + (r - e.lo) := by
  unfold toLowerRuneIn
  cases hf : table.find? (fun e => e.covers r) with
  | none => exact Or.inl ⟨rfl, rfl⟩
  | some e =>
    have hcov : e.covers r = true := by
      have := List.find?_some hf
      exact this
    exact Or.inr ⟨e, List.mem_of_find?_eq_some hf, hcov, rfl⟩

theorem toLowerRuneIn_idem (table : List CaseRun)
    (h : (table.all fun e => table.all fun e2 => e.imageMisses e2) = true) (r : Nat) :
    toLowerRuneIn table (toLowerRuneIn table r) = toLowerRuneIn table r := by
  rcases toLowerRuneIn_cases table r with ⟨h1, _⟩ | ⟨e, he, hc, h1⟩
  · rw [h1, h1]
  · rw [h1]
    have hnone : table.find? (fun e2 => e2.covers (e.tlo + (r - e.lo))) = none := by
      rw [List.find?_eq_none]
      intro e2 he2 hc2
      have hm : e.imageMisses e2 = true := by
        have := List.all_eq_true.mp h e he
        exact List.all_eq_true.mp this e2 he2
      rw [covers_iff] at hc hc2
      obtain ⟨lo, hi, st, tlo⟩ := e
      obtain ⟨lo2, hi2, st2, tlo2⟩ := e2
      simp only [CaseRun.imageMisses, Bool.or_eq_true, Bool.and_eq_true, decide_eq_true_eq,
        beq_iff_eq] at hm
      simp only at hc hc2
      rcases hm with (hm | hm) | ⟨⟨hs, hs2⟩, hp⟩
      · omega
      · omega
      · subst hs2
        rcases hs with hs | hs
        · subst hs
          omega
        · have : r = lo := by omega
          subst this
          omega
    unfold toLowerRuneIn
    rw [hnone]

theorem toLowerRuneIn_valid (table : List CaseRun)
    (hv : (table.all fun e => e.imageValid) = true) (n : Nat) (hn : n.isValidChar) :
    (toLowerRuneIn table n).isValidChar := by
  rcases toLowerRuneIn_cases table n with ⟨h1, _⟩ | ⟨e, he, hc, h1⟩
  · rw [h1]; exact hn
  · rw [h1]
    have hval := List.all_eq_true.mp hv e he
    rw [covers_iff] at hc
    simp only [CaseRun.imageValid, Bool.or_eq_true, Bool.and_eq_true, decide_eq_true_eq] at hval
    unfold Nat.isValidChar
    omega

theorem toLowerRuneIn_isSpace (table : List CaseRun)
    (hv : (table.all fun e => e.imageValid) = true) (n : Nat) :
    isSpace (toLowerRuneIn table n) = isSpace n := by
  rcases toLowerRuneIn_cases table n with ⟨h1, _⟩ | ⟨e, he, hc, h1⟩
  · rw [h1]
  · rw [h1]
    have hval := List.all_eq_true.mp hv e he
    rw [covers_iff] at hc
    simp only [CaseRun.imageValid, Bool.or_eq_true, Bool.and_eq_true, decide_eq_true_eq] at hval
    rw [isSpace_of_ge _ (by omega), isSpace_of_ge _ (by omega)]

theorem toNat_ofNat_of_valid (n : Nat) (h : n.isValidChar) : (Char.ofNat n).toNat = n := by
  unfold Char.ofNat
  rw [dif_pos h]
  rfl

theorem unicodeToLower_toNat (c : Char) :
    (unicodeToLower c).toNat = toLowerRuneIn lowerCaseRuns c.toNat :=
  toNat_ofNat_of_valid _ (toLowerRuneIn_valid _ lowerCaseRuns_imageValid _ c.valid)

theorem unicodeToLower_idem (c : Char) :
    unicodeToLower (unicodeToLower c) = unicodeToLower c := by
  have h1 := unicodeToLower_toNat c
  unfold unicodeToLower at h1 ⊢
  rw [h1, toLowerRuneIn_idem lowerCaseRuns lowerCaseRuns_imageMisses]

theorem unicodeToLower_isSpace (c : Char) :
    isSpace (unicodeToLower c).toNat = isSpace c.toNat := by
  rw [unicodeToLower_toNat, toLowerRuneIn_isSpace _ lowerCaseRuns_imageValid]

theorem unicodeToLower_samples :
    unicodeToLower 'A' = 'a' ∧ unicodeToLower 'z' = 'z' ∧ unicodeToLower 'É' = 'é' ∧
    unicodeToLower 'Σ' = 'σ' ∧ unicodeToLower 'Ж' = 'ж' ∧ unicodeToLower 'İ' = 'i' ∧
    unicodeToLower 'ǅ' = 'ǆ' ∧ unicodeToLower 'ẞ' = 'ß' ∧ unicodeToLower '1' = '1' := by
  decide!

/-- C15: `ToLower` is idempotent on every value. A string, a `Key` and a
`[]byte` all become the lower-cased string, also when the bytes are not valid
UTF-8, and a second application leaves that string as it is, because no
lower-case form of the Unicode table has a lower-case form other than itself;
any other value is returned unchanged both times. -/
theorem toLower_idempotent (keyString : Key → GoString) (v : Value) :
    ToLower (goEnv keyString) (ToLower (goEnv keyString) v) =
      ToLower (goEnv keyString) v := by
  cases v <;> simp only [ToLower, goEnv, stringsToLower_idem _ unicodeToLower_idem]

/-- Witness of C15: `ÉCOLE Σ` becomes `école σ`, the key `HeLLo` becomes the
string `hello`, and lower-casing either of them twice gives the same. -/
theorem toLower_idempotent_witness :
    ToLower (goEnv fun k => ⟨k.raw.getD []⟩) (Value.str (GoString.ofText "ÉCOLE Σ")) =
      Value.str (GoString.ofText "école σ") ∧
    ToLower (goEnv fun k => ⟨k.raw.getD []⟩) (Value.key ⟨some (asciiBytes "HeLLo")⟩) =
      Value.str ⟨asciiBytes "hello"⟩ ∧
    ToLower (goEnv fun k => ⟨k.raw.getD []⟩)
        (ToLower (goEnv fun k => ⟨k.raw.getD []⟩)
          (Value.str (GoString.ofText "ÉCOLE Σ"))) =
      ToLower (goEnv fun k => ⟨k.raw.getD []⟩) (Value.str (GoString.ofText "ÉCOLE Σ")) ∧
    ToLower (goEnv fun k => ⟨k.raw.getD []⟩)
        (ToLower (goEnv fun k => ⟨k.raw.getD []⟩)
          (Value.key ⟨some (asciiBytes "HeLLo")⟩)) =
      ToLower (goEnv fun k => ⟨k.raw.getD []⟩) (Value.key ⟨some (asciiBytes "HeLLo")⟩) :=
  ⟨by decide!, by decide!, toLower_idempotent _ _, toLower_idempotent _ _⟩

end Eibb
